import Mathlib

/-!
Verification of the MapReduce engine and data parsers of the
`determine_numbers_of_flights` repository.

The engine (`src/mapreduce_framework.py`) runs worker threads that poll a
non-blocking task queue and exit when they observe it empty.  We embed it
shallowly with an explicit interleaving schedule: a schedule is a list of
worker indices, and each schedule entry makes the named worker perform one
atomic action (pop a task, append one emitted pair under the lock, finish a
task, or terminate on an observed-empty queue).  A real execution of the
threaded program corresponds to some schedule after which every worker has
terminated, so claims quantified over thread scheduling become claims
quantified over such completing schedules.

Mappers and reducers are Python generator functions: an invocation yields a
sequence of pairs and may then raise.  We model a user function as returning
the list of pairs it yields before finishing or raising, together with a flag
recording whether it raises afterwards (a function that raises before its
first yield returns `([], true)`).

The shuffle table is a Python `dict` keyed by intermediate key; Python dicts
preserve insertion order, so it is modelled as an association list where a
new key is appended at the end and an existing key's value list grows at its
entry (`dictAppend`).
-/

namespace MapReduceSpec

/-- Status of one worker thread inside a phase: `idle` between tasks (about to
poll the queue), `emitting rest fails` in the middle of a task with `rest`
still to be appended to the shared accumulator (`fails` records whether the
user function raises after its last yield), or `done` after observing an
empty queue and leaving the polling loop. -/
inductive WStatus (E : Type) where
  | idle : WStatus E
  | emitting : List E → Bool → WStatus E
  | done : WStatus E
deriving DecidableEq

/-- Shared state of one phase (map phase or reduce phase): the pending task
queue, the shared accumulator (shuffle dict resp. results list), and the
status of each worker in the pool. -/
structure PhaseState (T E A : Type) where
  queue : List T
  acc : A
  workers : List (WStatus E)
deriving DecidableEq

variable {T E A : Type}

/-- One atomic action of worker `i`, mirroring `_map_worker` / `_reduce_worker`:
an idle worker pops a task with `get(block=False)` (or terminates if the queue
is observed empty); a worker mid-task appends its next emitted element to the
shared accumulator under the lock; a worker whose task has no further
emissions returns to the polling loop — if the user function raised, the
exception is caught by the `except` clause at exactly this point and the
worker likewise continues with the next task. -/
def phaseStep (proc : T → List E × Bool) (app : A → E → A)
    (s : PhaseState T E A) (i : Nat) : PhaseState T E A :=
  match s.workers.get? i with
  | none => s
  | some .done => s
  | some .idle =>
    match s.queue with
    | [] => { s with workers := s.workers.set i .done }
    | t :: ts =>
      { s with queue := ts,
               workers := s.workers.set i (.emitting (proc t).1 (proc t).2) }
  | some (.emitting [] _) => { s with workers := s.workers.set i .idle }
  | some (.emitting (e :: rest) fl) =>
    { s with acc := app s.acc e, workers := s.workers.set i (.emitting rest fl) }

/-- Run a phase under an explicit interleaving schedule (a list of worker
indices, each entry being one atomic action of that worker). -/
def runPhase (proc : T → List E × Bool) (app : A → E → A)
    (sched : List Nat) (s : PhaseState T E A) : PhaseState T E A :=
  sched.foldl (phaseStep proc app) s

theorem phaseStep_none (proc : T → List E × Bool) (app : A → E → A)
    {s : PhaseState T E A} {i : Nat} (h : s.workers.get? i = none) :
    phaseStep proc app s i = s := by
  unfold phaseStep
  rw [h]

theorem phaseStep_done (proc : T → List E × Bool) (app : A → E → A)
    {s : PhaseState T E A} {i : Nat} (h : s.workers.get? i = some .done) :
    phaseStep proc app s i = s := by
  unfold phaseStep
  rw [h]

theorem phaseStep_idle_nil (proc : T → List E × Bool) (app : A → E → A)
    {s : PhaseState T E A} {i : Nat} (h : s.workers.get? i = some .idle)
    (hq : s.queue = []) :
    phaseStep proc app s i = { s with workers := s.workers.set i .done } := by
  unfold phaseStep
  rw [h, hq]

theorem phaseStep_idle_cons (proc : T → List E × Bool) (app : A → E → A)
    {s : PhaseState T E A} {i : Nat} {t : T} {ts : List T}
    (h : s.workers.get? i = some .idle) (hq : s.queue = t :: ts) :
    phaseStep proc app s i
      = { s with queue := ts,
                 workers := s.workers.set i (.emitting (proc t).1 (proc t).2) } := by
  unfold phaseStep
  rw [h, hq]

theorem phaseStep_emit_nil (proc : T → List E × Bool) (app : A → E → A)
    {s : PhaseState T E A} {i : Nat} {fl : Bool}
    (h : s.workers.get? i = some (.emitting [] fl)) :
    phaseStep proc app s i = { s with workers := s.workers.set i .idle } := by
  unfold phaseStep
  rw [h]

theorem phaseStep_emit_cons (proc : T → List E × Bool) (app : A → E → A)
    {s : PhaseState T E A} {i : Nat} {e : E} {rest : List E} {fl : Bool}
    (h : s.workers.get? i = some (.emitting (e :: rest) fl)) :
    phaseStep proc app s i
      = { s with acc := app s.acc e,
                 workers := s.workers.set i (.emitting rest fl) } := by
  unfold phaseStep
  rw [h]

theorem runPhase_cons (proc : T → List E × Bool) (app : A → E → A)
    (i : Nat) (sched : List Nat) (s : PhaseState T E A) :
    runPhase proc app (i :: sched) s
      = runPhase proc app sched (phaseStep proc app s i) := rfl

theorem runPhase_append (proc : T → List E × Bool) (app : A → E → A)
    (s1 s2 : List Nat) (s : PhaseState T E A) :
    runPhase proc app (s1 ++ s2) s
      = runPhase proc app s2 (runPhase proc app s1 s) := by
  unfold runPhase
  rw [List.foldl_append]

/-- Check on a worker status used to detect phase completion. -/
def WStatus.isDone : WStatus E → Bool
  | .done => true
  | _ => false

/-- A phase is complete when every worker thread has terminated; this is the
join barrier in `run` (`for t in threads: t.join()`). -/
def allDone (s : PhaseState T E A) : Bool :=
  s.workers.all WStatus.isDone

/-- Initial state of a phase: the full task list loaded into the queue, the
empty accumulator, and `n` idle workers. -/
def initPhase (n : Nat) (tasks : List T) (a : A) : PhaseState T E A :=
  ⟨tasks, a, List.replicate n .idle⟩

variable {K V : Type} [DecidableEq K]

/-- Model of one append into the shuffle dict under the lock:
`if map_key not in shuffle_dict: shuffle_dict[map_key] = []` followed by
`shuffle_dict[map_key].append(map_value)`.  Python dicts preserve insertion
order, so a new key goes to the end and an existing key's list grows in
place. -/
def dictAppend (d : List (K × List V)) (k : K) (v : V) : List (K × List V) :=
  match d with
  | [] => [(k, [v])]
  | (k', vs) :: rest =>
    if k = k' then (k', vs ++ [v]) :: rest else (k', vs) :: dictAppend rest k v

/-- Multiset of all (key, value) pairs stored in a shuffle dict. -/
def dictPairs (d : List (K × List V)) : Multiset (K × V) :=
  (d.flatMap fun p => p.2.map fun v => (p.1, v) : List (K × V))

/-- Model of `_shuffle`: iterate the shuffle dict and push one reduce task
`(key, collected values)` per entry onto the reduce queue, in dict order. -/
def shuffle (d : List (K × List V)) : List (K × List V) :=
  d.foldl (fun q p => q ++ [p]) []

variable {IK IV R : Type}

/-- Run the map phase: process the input pairs with `n` mapper workers under
schedule `sched`, accumulating emitted pairs into the shuffle dict. -/
def mapPhase (mapper : IK → IV → List (K × V) × Bool) (n : Nat)
    (input : List (IK × IV)) (sched : List Nat) :
    PhaseState (IK × IV) (K × V) (List (K × List V)) :=
  runPhase (fun t => mapper t.1 t.2) (fun d e => dictAppend d e.1 e.2) sched
    (initPhase n input [])

/-- Run the reduce phase: process the reduce tasks with `n` reducer workers
under schedule `sched`, appending each emitted result to the results list
(`self.results.append(result)` under the results lock). -/
def reducePhase (reducer : K → List V → List R × Bool) (n : Nat)
    (tasks : List (K × List V)) (sched : List Nat) :
    PhaseState (K × List V) R (List R) :=
  runPhase (fun t => reducer t.1 t.2) (fun rs r => rs ++ [r]) sched
    (initPhase n tasks [])

/-- State of a `MapReduceFramework` instance, mirroring the fields set in
`__init__`: the pool sizes and the four shared collections. -/
structure MapReduceFramework (IK IV K V R : Type) where
  num_mappers : Nat
  num_reducers : Nat
  map_queue : List (IK × IV)
  shuffle_dict : List (K × List V)
  reduce_queue : List (K × List V)
  results : List R
deriving DecidableEq

/-- A freshly constructed framework (`MapReduceFramework(num_mappers,
num_reducers)`): empty queues, empty shuffle dict, empty results. -/
def MapReduceFramework.mk' (nm nr : Nat) : MapReduceFramework IK IV K V R :=
  ⟨nm, nr, [], [], [], []⟩

/-- Model of `MapReduceFramework.run`.  It first resets the map queue, the
shuffle dict, the reduce queue and the results list (discarding whatever the
instance held from a prior run), loads the input into the map queue, runs the
mapper pool to the join barrier, shuffles, runs the reducer pool to the join
barrier, and returns the results together with the instance's final state.
The two schedules pick one interleaving of the worker threads; `none` means
the given schedules do not drive every worker of a pool to termination, i.e.
they do not describe a completed execution (the real `run` keeps running
until the joins succeed). -/
def MapReduceFramework.run (fw : MapReduceFramework IK IV K V R)
    (input : List (IK × IV))
    (mapper : IK → IV → List (K × V) × Bool)
    (reducer : K → List V → List R × Bool)
    (msched rsched : List Nat) :
    Option (List R × MapReduceFramework IK IV K V R) :=
  if allDone (mapPhase mapper fw.num_mappers input msched) then
    if allDone (reducePhase reducer fw.num_reducers
        (shuffle (mapPhase mapper fw.num_mappers input msched).acc) rsched) then
      some ((reducePhase reducer fw.num_reducers
              (shuffle (mapPhase mapper fw.num_mappers input msched).acc) rsched).acc,
        { fw with
            map_queue := (mapPhase mapper fw.num_mappers input msched).queue,
            shuffle_dict := (mapPhase mapper fw.num_mappers input msched).acc,
            reduce_queue := (reducePhase reducer fw.num_reducers
              (shuffle (mapPhase mapper fw.num_mappers input msched).acc) rsched).queue,
            results := (reducePhase reducer fw.num_reducers
              (shuffle (mapPhase mapper fw.num_mappers input msched).acc) rsched).acc })
    else none
  else none

/-- All intermediate pairs the mapper yields across the input, including the
pairs a failing invocation yields before raising. -/
def allEmissions (mapper : IK → IV → List (K × V) × Bool)
    (input : List (IK × IV)) : List (K × V) :=
  input.flatMap fun t => (mapper t.1 t.2).1

/-! ### Auxiliary list lemmas -/

theorem sum_map_set {α : Type} {M : Type} [AddCommMonoid M] (f : α → M)
    (l : List α) (i : Nat) (x w : α) (h : l.get? i = some w) :
    ((l.set i x).map f).sum + f w = (l.map f).sum + f x := by
  induction l generalizing i with
  | nil => simp at h
  | cons a t ih =>
    cases i with
    | zero =>
      simp only [List.get?] at h
      cases h
      simp [List.set]
      abel
    | succ j =>
      simp only [List.get?] at h
      simp only [List.set, List.map_cons, List.sum_cons]
      have hstep := ih j h
      rw [add_assoc, hstep, add_assoc]

theorem mem_of_mem_set {α : Type} {l : List α} {i : Nat} {x a : α}
    (h : a ∈ l.set i x) : a ∈ l ∨ a = x := by
  induction l generalizing i with
  | nil => simp [List.set] at h
  | cons b t ih =>
    cases i with
    | zero =>
      rcases List.mem_cons.1 h with h | h
      · exact Or.inr h
      · exact Or.inl (List.mem_cons_of_mem _ h)
    | succ j =>
      rcases List.mem_cons.1 h with h | h
      · exact Or.inl (h ▸ List.mem_cons_self _ _)
      · rcases ih h with h | h
        · exact Or.inl (List.mem_cons_of_mem _ h)
        · exact Or.inr h

/-! ### Phase invariants and conservation -/

/-- Elements still to be appended by a worker that is in the middle of a
task. -/
def wPending : WStatus E → Multiset E
  | .emitting rest _ => (rest : Multiset E)
  | _ => 0

/-- All elements that will still reach the accumulator if the phase runs to
completion: the emissions of every queued task plus the unfinished emissions
of every busy worker. -/
def pendingOf (proc : T → List E × Bool) (s : PhaseState T E A) : Multiset E :=
  (s.queue.map fun t => ((proc t).1 : Multiset E)).sum
    + (s.workers.map wPending).sum

theorem workers_length_phaseStep (proc : T → List E × Bool) (app : A → E → A)
    (s : PhaseState T E A) (i : Nat) :
    (phaseStep proc app s i).workers.length = s.workers.length := by
  unfold phaseStep
  rcases h : s.workers.get? i with _ | w
  · rfl
  · cases w with
    | idle => cases s.queue <;> simp
    | emitting rest fl => cases rest <;> simp
    | done => rfl

theorem workers_length_runPhase (proc : T → List E × Bool) (app : A → E → A)
    (sched : List Nat) (s : PhaseState T E A) :
    (runPhase proc app sched s).workers.length = s.workers.length := by
  induction sched generalizing s with
  | nil => rfl
  | cons i rest ih =>
    simpa [runPhase, List.foldl_cons] using
      (ih (phaseStep proc app s i)).trans (workers_length_phaseStep proc app s i)

/-- Once some worker has terminated, the queue is empty (a worker terminates
only on an observed-empty queue, and the queue never grows during a phase). -/
def DoneImpliesEmpty (s : PhaseState T E A) : Prop :=
  (WStatus.done ∈ s.workers) → s.queue = []

theorem doneImpliesEmpty_phaseStep (proc : T → List E × Bool) (app : A → E → A)
    (s : PhaseState T E A) (i : Nat) (hs : DoneImpliesEmpty s) :
    DoneImpliesEmpty (phaseStep proc app s i) := by
  unfold phaseStep
  rcases h : s.workers.get? i with _ | w
  · exact hs
  · cases w with
    | idle =>
      rcases hq : s.queue with _ | ⟨t, ts⟩
      · intro _; rfl
      · intro hmem
        rcases mem_of_mem_set hmem with hmem | hmem
        · exact absurd (hs hmem) (by simp [hq])
        · exact absurd hmem (by simp)
    | emitting rest fl =>
      cases rest with
      | nil =>
        intro hmem
        rcases mem_of_mem_set hmem with hmem | hmem
        · exact hs hmem
        · exact absurd hmem (by simp)
      | cons e r =>
        intro hmem
        rcases mem_of_mem_set hmem with hmem | hmem
        · exact hs hmem
        · exact absurd hmem (by simp)
    | done => exact hs

theorem doneImpliesEmpty_runPhase (proc : T → List E × Bool) (app : A → E → A)
    (sched : List Nat) (s : PhaseState T E A) (hs : DoneImpliesEmpty s) :
    DoneImpliesEmpty (runPhase proc app sched s) := by
  induction sched generalizing s with
  | nil => exact hs
  | cons i rest ih =>
    exact ih _ (doneImpliesEmpty_phaseStep proc app s i hs)

/-- One phase step conserves the sum of accumulated and pending elements,
where `meas` measures the accumulator as a multiset of elements and `app`
adds exactly one element. -/
theorem conservation_phaseStep (proc : T → List E × Bool) (app : A → E → A)
    (meas : A → Multiset E)
    (happ : ∀ a e, meas (app a e) = meas a + {e})
    (s : PhaseState T E A) (i : Nat) :
    meas (phaseStep proc app s i).acc + pendingOf proc (phaseStep proc app s i)
      = meas s.acc + pendingOf proc s := by
  unfold phaseStep
  rcases h : s.workers.get? i with _ | w
  · rfl
  · cases w with
    | idle =>
      rcases hq : s.queue with _ | ⟨t, ts⟩
      · have hset := sum_map_set wPending s.workers i WStatus.done WStatus.idle h
        have hW : (List.map wPending (s.workers.set i WStatus.done)).sum
            = (List.map wPending s.workers).sum := by
          simpa [wPending] using hset
        simp only [pendingOf]
        rw [hW, hq]
      · have hset := sum_map_set wPending s.workers i
          (WStatus.emitting (proc t).1 (proc t).2) WStatus.idle h
        have hW : (List.map wPending
              (s.workers.set i (WStatus.emitting (proc t).1 (proc t).2))).sum
            = (List.map wPending s.workers).sum + ((proc t).1 : Multiset E) := by
          simpa [wPending] using hset
        simp only [pendingOf]
        rw [hq, hW, List.map_cons, List.sum_cons]
        abel
    | emitting rest fl =>
      cases rest with
      | nil =>
        have hset := sum_map_set wPending s.workers i
          WStatus.idle (WStatus.emitting [] fl) h
        have hW : (List.map wPending (s.workers.set i WStatus.idle)).sum
            = (List.map wPending s.workers).sum := by
          simpa [wPending] using hset
        simp only [pendingOf]
        rw [hW]
      | cons e r =>
        have hset := sum_map_set wPending s.workers i
          (WStatus.emitting r fl) (WStatus.emitting (e :: r) fl) h
        have hset' : (List.map wPending (s.workers.set i (WStatus.emitting r fl))).sum
              + ({e} + (r : Multiset E))
            = (List.map wPending s.workers).sum + (r : Multiset E) := by
          simpa [wPending, Multiset.cons_coe] using hset
        rw [← add_assoc] at hset'
        have hW : (List.map wPending (s.workers.set i (WStatus.emitting r fl))).sum
              + ({e} : Multiset E)
            = (List.map wPending s.workers).sum := add_right_cancel hset'
        simp only [pendingOf]
        rw [happ, ← hW]
        abel
    | done => rfl

theorem conservation_runPhase (proc : T → List E × Bool) (app : A → E → A)
    (meas : A → Multiset E)
    (happ : ∀ a e, meas (app a e) = meas a + {e})
    (sched : List Nat) (s : PhaseState T E A) :
    meas (runPhase proc app sched s).acc + pendingOf proc (runPhase proc app sched s)
      = meas s.acc + pendingOf proc s := by
  induction sched generalizing s with
  | nil => rfl
  | cons i rest ih =>
    exact (ih (phaseStep proc app s i)).trans
      (conservation_phaseStep proc app meas happ s i)

/-- In a completed phase with at least one worker, every queued task was
consumed and every worker finished its emissions, so the accumulator holds
exactly the initial accumulator content plus every emission of every task. -/
theorem completed_acc_measure (proc : T → List E × Bool) (app : A → E → A)
    (meas : A → Multiset E)
    (happ : ∀ a e, meas (app a e) = meas a + {e})
    (sched : List Nat) (n : Nat) (tasks : List T) (a : A)
    (hn : 1 ≤ n)
    (hdone : allDone (runPhase proc app sched (initPhase n tasks a)) = true) :
    meas (runPhase proc app sched (initPhase n tasks a)).acc
      = meas a + (tasks.map fun t => ((proc t).1 : Multiset E)).sum := by
  set s := runPhase proc app sched (initPhase n tasks a) with hs
  have hcons := conservation_runPhase proc app meas happ sched (initPhase n tasks a)
  have hlen : s.workers.length = n := by
    rw [hs, workers_length_runPhase]
    simp [initPhase]
  have hall : ∀ w ∈ s.workers, w = WStatus.done := by
    intro w hw
    have hid := List.all_eq_true.1 hdone w hw
    cases w with
    | idle => simp [WStatus.isDone] at hid
    | emitting rest fl => simp [WStatus.isDone] at hid
    | done => rfl
  have hq : s.queue = [] := by
    have hde : DoneImpliesEmpty s := by
      rw [hs]
      apply doneImpliesEmpty_runPhase
      intro hmem
      simp [initPhase] at hmem
    apply hde
    have hpos : 0 < s.workers.length := by omega
    obtain ⟨w, hw⟩ := List.exists_mem_of_length_pos hpos
    exact hall w hw ▸ hw
  have hpend : pendingOf proc s = 0 := by
    unfold pendingOf
    rw [hq]
    simp only [List.map_nil, List.sum_nil, zero_add]
    have : s.workers.map wPending = s.workers.map fun _ => (0 : Multiset E) := by
      apply List.map_congr_left
      intro w hw
      rw [hall w hw]
      rfl
    rw [this]
    simp
  have hpend0 : pendingOf proc (initPhase n tasks a : PhaseState T E A)
      = (tasks.map fun t => ((proc t).1 : Multiset E)).sum := by
    unfold pendingOf initPhase
    simp only
    have : (List.replicate n (WStatus.idle : WStatus E)).map wPending
        = List.replicate n (0 : Multiset E) := by
      rw [List.map_replicate]
      rfl
    rw [this]
    simp
  rw [hpend, add_zero] at hcons
  rw [hcons, hpend0]
  rfl

/-- Any property of the accumulator preserved by single appends is preserved
by a whole phase (the only way a phase touches the accumulator is `app`). -/
theorem acc_invariant (proc : T → List E × Bool) (app : A → E → A)
    (Q : A → Prop) (hQ : ∀ a e, Q a → Q (app a e))
    (sched : List Nat) (s : PhaseState T E A) (h0 : Q s.acc) :
    Q (runPhase proc app sched s).acc := by
  induction sched generalizing s with
  | nil => exact h0
  | cons i rest ih =>
    apply ih
    unfold phaseStep
    rcases h : s.workers.get? i with _ | w
    · exact h0
    · cases w with
      | idle => cases s.queue <;> exact h0
      | emitting rest' fl =>
        cases rest' with
        | nil => exact h0
        | cons e r => exact hQ _ _ h0
      | done => exact h0

/-- With an empty worker pool every schedule entry is a no-op, so the phase
state never changes: the queue is never drained. -/
theorem runPhase_no_workers (proc : T → List E × Bool) (app : A → E → A)
    (sched : List Nat) (s : PhaseState T E A) (h : s.workers = []) :
    runPhase proc app sched s = s := by
  induction sched generalizing s with
  | nil => rfl
  | cons i rest ih =>
    have hstep : phaseStep proc app s i = s := by
      unfold phaseStep
      rcases hg : s.workers.get? i with _ | w
      · rfl
      · rw [h] at hg
        simp at hg
    rw [runPhase, List.foldl_cons, hstep]
    exact ih s h

/-! ### Shuffle-dict lemmas -/

/-- The shuffle dict never holds two entries for the same key. -/
def NodupKeys (d : List (K × List V)) : Prop :=
  (d.map Prod.fst).Nodup

theorem dictPairs_nil : dictPairs ([] : List (K × List V)) = 0 := rfl

theorem dictPairs_cons (k : K) (vs : List V) (d : List (K × List V)) :
    dictPairs ((k, vs) :: d) = (vs.map fun v => (k, v) : List (K × V)) + dictPairs d := by
  simp [dictPairs]

theorem dictPairs_dictAppend (d : List (K × List V)) (k : K) (v : V) :
    dictPairs (dictAppend d k v) = dictPairs d + {(k, v)} := by
  induction d with
  | nil => simp [dictAppend, dictPairs]
  | cons p rest ih =>
    obtain ⟨k', vs⟩ := p
    by_cases hk : k = k'
    · subst hk
      rw [show dictAppend ((k, vs) :: rest) k v = (k, vs ++ [v]) :: rest from by
        simp [dictAppend]]
      rw [dictPairs_cons, dictPairs_cons]
      simp only [List.map_append, List.map_cons, List.map_nil]
      rw [show ((((vs.map fun v' => (k, v')) ++ [(k, v)] : List (K × V))) : Multiset (K × V))
          = ((vs.map fun v' => (k, v') : List (K × V)) : Multiset (K × V)) + {(k, v)} by
        rw [← Multiset.coe_singleton (k, v), ← Multiset.coe_add]]
      abel
    · rw [show dictAppend ((k', vs) :: rest) k v = (k', vs) :: dictAppend rest k v from by
        simp [dictAppend, hk]]
      rw [dictPairs_cons, dictPairs_cons, ih]
      abel

theorem keys_dictAppend (d : List (K × List V)) (k : K) (v : V) :
    (dictAppend d k v).map Prod.fst
      = if k ∈ d.map Prod.fst then d.map Prod.fst else d.map Prod.fst ++ [k] := by
  induction d with
  | nil => simp [dictAppend]
  | cons p rest ih =>
    obtain ⟨k', vs⟩ := p
    by_cases hk : k = k'
    · subst hk
      simp [dictAppend]
    · simp only [dictAppend, if_neg hk, List.map_cons, ih]
      by_cases hmem : k ∈ rest.map Prod.fst
      · rw [if_pos hmem, if_pos (by simp [hmem])]
      · rw [if_neg hmem, if_neg (by simp [hmem, Ne.symm, hk])]
        rfl

theorem nodupKeys_dictAppend (d : List (K × List V)) (k : K) (v : V)
    (h : NodupKeys d) : NodupKeys (dictAppend d k v) := by
  unfold NodupKeys at *
  rw [keys_dictAppend]
  by_cases hmem : k ∈ d.map Prod.fst
  · rwa [if_pos hmem]
  · rw [if_neg hmem]
    simp [List.nodup_append, h, hmem]

theorem vals_ne_nil_dictAppend (d : List (K × List V)) (k : K) (v : V)
    (h : ∀ p ∈ d, p.2 ≠ []) : ∀ p ∈ dictAppend d k v, p.2 ≠ [] := by
  induction d with
  | nil =>
    intro p hp
    simp [dictAppend] at hp
    subst hp
    simp
  | cons q rest ih =>
    obtain ⟨k', vs⟩ := q
    intro p hp
    by_cases hk : k = k'
    · subst hk
      simp only [dictAppend, if_pos rfl] at hp
      rcases List.mem_cons.1 hp with hp | hp
      · subst hp; simp
      · exact h p (List.mem_cons_of_mem _ hp)
    · simp only [dictAppend, if_neg hk] at hp
      rcases List.mem_cons.1 hp with hp | hp
      · subst hp
        exact h (k', vs) (List.mem_cons_self _ _)
      · exact ih (fun q hq => h q (List.mem_cons_of_mem _ hq)) p hp

theorem mem_dictPairs (d : List (K × List V)) (k : K) (v : V) :
    (k, v) ∈ dictPairs d ↔ ∃ vs, (k, vs) ∈ d ∧ v ∈ vs := by
  induction d with
  | nil => simp [dictPairs]
  | cons p rest ih =>
    obtain ⟨k', vs'⟩ := p
    rw [dictPairs_cons, Multiset.mem_add]
    constructor
    · rintro (h | h)
      · rw [Multiset.mem_coe, List.mem_map] at h
        obtain ⟨v', hv', he⟩ := h
        simp only [Prod.mk.injEq] at he
        obtain ⟨h1, h2⟩ := he
        subst h1
        subst h2
        exact ⟨vs', List.mem_cons_self _ _, hv'⟩
      · obtain ⟨vs, h1, h2⟩ := ih.1 h
        exact ⟨vs, List.mem_cons_of_mem _ h1, h2⟩
    · rintro ⟨vs, h1, h2⟩
      rcases List.mem_cons.1 h1 with hp | hp
      · simp only [Prod.mk.injEq] at hp
        obtain ⟨h3, h4⟩ := hp
        subst h3
        subst h4
        left
        rw [Multiset.mem_coe, List.mem_map]
        exact ⟨v, h2, rfl⟩
      · exact Or.inr (ih.2 ⟨vs, hp, h2⟩)

theorem mem_keys_iff_dictPairs (d : List (K × List V)) (k : K)
    (hne : ∀ p ∈ d, p.2 ≠ []) :
    k ∈ d.map Prod.fst ↔ ∃ v, (k, v) ∈ dictPairs d := by
  constructor
  · intro hmem
    rw [List.mem_map] at hmem
    obtain ⟨p, hp, hfst⟩ := hmem
    rcases hvs : p.2 with _ | ⟨v, vs'⟩
    · exact absurd hvs (hne p hp)
    · refine ⟨v, (mem_dictPairs d k v).2 ⟨p.2, ?_, by rw [hvs]; exact List.mem_cons_self _ _⟩⟩
      rw [← hfst]
      exact hp
  · rintro ⟨v, hv⟩
    obtain ⟨vs, h1, _⟩ := (mem_dictPairs d k v).1 hv
    exact List.mem_map_of_mem Prod.fst h1


/-- Multiset `filterMap` distributes over addition. -/
theorem filterMap_add_multiset {α β : Type} (f : α → Option β) (m m' : Multiset α) :
    Multiset.filterMap f (m + m')
      = Multiset.filterMap f m + Multiset.filterMap f m' := by
  induction m using Multiset.induction with
  | empty => simp
  | cons a s ih =>
    rcases h : f a with _ | b
    · rw [Multiset.cons_add, Multiset.filterMap_cons_none _ _ h,
        Multiset.filterMap_cons_none _ _ h, ih]
    · rw [Multiset.cons_add, Multiset.filterMap_cons_some _ _ _ h,
        Multiset.filterMap_cons_some _ _ _ h, ih, Multiset.cons_add]

/-- The values associated with key `k` inside a multiset of pairs. -/
def keyVals (m : Multiset (K × V)) (k : K) : Multiset V :=
  m.filterMap fun p => if p.1 = k then some p.2 else none

theorem keyVals_add (m m' : Multiset (K × V)) (k : K) :
    keyVals (m + m') k = keyVals m k + keyVals m' k :=
  filterMap_add_multiset _ m m'

theorem keyVals_pairs (k k' : K) (vs : List V) :
    keyVals ((vs.map fun v => (k', v) : List (K × V)) : Multiset (K × V)) k
      = if k' = k then (vs : Multiset V) else 0 := by
  unfold keyVals
  rw [Multiset.filterMap_coe]
  by_cases h : k' = k
  · subst h
    rw [if_pos rfl]
    induction vs with
    | nil => rfl
    | cons v t ih => simpa [List.filterMap_cons] using ih
  · rw [if_neg h]
    induction vs with
    | nil => rfl
    | cons v t ih => simpa [List.filterMap_cons, h] using ih

theorem keyVals_zero_of_notMem (d : List (K × List V)) (k : K)
    (h : k ∉ d.map Prod.fst) : keyVals (dictPairs d) k = 0 := by
  induction d with
  | nil => rfl
  | cons p rest ih =>
    obtain ⟨k', vs⟩ := p
    simp only [List.map_cons, List.mem_cons] at h
    push_neg at h
    rw [dictPairs_cons, keyVals_add, keyVals_pairs, if_neg (fun he => h.1 he.symm),
      ih h.2, add_zero]

/-- The entry for key `k` in a nodup-keys dict carries exactly the values of
`dictPairs` filed under `k`. -/
theorem keyVals_dictPairs (d : List (K × List V)) (k : K) (vs : List V)
    (hnd : NodupKeys d) (hmem : (k, vs) ∈ d) :
    keyVals (dictPairs d) k = (vs : Multiset V) := by
  induction d with
  | nil => simp at hmem
  | cons p rest ih =>
    obtain ⟨k', vs'⟩ := p
    have hhead : k' ∉ rest.map Prod.fst := by
      unfold NodupKeys at hnd
      simp only [List.map_cons] at hnd
      exact (List.nodup_cons.1 hnd).1
    have hnd' : NodupKeys rest := by
      unfold NodupKeys at hnd ⊢
      simp only [List.map_cons] at hnd
      exact (List.nodup_cons.1 hnd).2
    rw [dictPairs_cons, keyVals_add]
    rcases List.mem_cons.1 hmem with hp | hp
    · simp only [Prod.mk.injEq] at hp
      obtain ⟨h1, h2⟩ := hp
      subst h1
      subst h2
      rw [keyVals_pairs, if_pos rfl, keyVals_zero_of_notMem rest k hhead, add_zero]
    · have hkne : k' ≠ k := by
        intro he
        subst he
        exact hhead (List.mem_map_of_mem Prod.fst hp)
      rw [keyVals_pairs, if_neg hkne, ih hnd' hp, zero_add]


/-! ### Phase corollaries for the concrete engine -/

theorem sum_map_coe_flatMap {α E : Type} (f : α → List E) (l : List α) :
    (l.map fun t => ((f t : List E) : Multiset E)).sum = ((l.flatMap f : List E) : Multiset E) := by
  induction l with
  | nil => rfl
  | cons a t ih =>
    rw [List.map_cons, List.sum_cons, List.flatMap_cons, ih, ← Multiset.coe_add]

/-- The shuffle dict produced by the map phase never has duplicate keys,
whatever the schedule did. -/
theorem mapPhase_nodupKeys (mapper : IK → IV → List (K × V) × Bool) (n : Nat)
    (input : List (IK × IV)) (sched : List Nat) :
    NodupKeys (mapPhase mapper n input sched).acc := by
  unfold mapPhase
  exact acc_invariant _ _ NodupKeys
    (fun a e h => nodupKeys_dictAppend a e.1 e.2 h) sched _ (by simp [NodupKeys, initPhase])

/-- No entry of the shuffle dict ever carries an empty value list. -/
theorem mapPhase_vals_ne_nil (mapper : IK → IV → List (K × V) × Bool) (n : Nat)
    (input : List (IK × IV)) (sched : List Nat) :
    ∀ p ∈ (mapPhase mapper n input sched).acc, p.2 ≠ [] := by
  unfold mapPhase
  apply acc_invariant (fun t => mapper t.1 t.2) (fun d e => dictAppend d e.1 e.2)
    (fun a => ∀ p ∈ a, p.2 ≠ [])
    (fun (a : List (K × List V)) (e : K × V) h => vals_ne_nil_dictAppend a e.1 e.2 h)
    sched (initPhase n input [])
  intro p hp
  simp [initPhase] at hp

/-- After a completed map phase with at least one mapper worker, the shuffle
dict holds exactly the multiset of all pairs the mapper emitted across the
whole input (including pairs emitted before a raise). -/
theorem mapPhase_pairs (mapper : IK → IV → List (K × V) × Bool) (n : Nat)
    (input : List (IK × IV)) (sched : List Nat) (hn : 1 ≤ n)
    (hdone : allDone (mapPhase mapper n input sched) = true) :
    dictPairs (mapPhase mapper n input sched).acc
      = ((allEmissions mapper input : List (K × V)) : Multiset (K × V)) := by
  unfold mapPhase allEmissions
  unfold mapPhase at hdone
  rw [completed_acc_measure _ _ dictPairs
    (fun a e => by rw [dictPairs_dictAppend]) sched n input [] hn hdone]
  rw [dictPairs_nil, zero_add, sum_map_coe_flatMap (fun t => (mapper t.1 t.2).1) input]

/-- After a completed reduce phase with at least one reducer worker, the
results list holds exactly the multiset of all results the reducer emitted
across all reduce tasks. -/
theorem reducePhase_results (reducer : K → List V → List R × Bool) (n : Nat)
    (tasks : List (K × List V)) (sched : List Nat) (hn : 1 ≤ n)
    (hdone : allDone (reducePhase reducer n tasks sched) = true) :
    (((reducePhase reducer n tasks sched).acc : List R) : Multiset R)
      = ((tasks.flatMap fun t => (reducer t.1 t.2).1 : List R) : Multiset R) := by
  unfold reducePhase
  unfold reducePhase at hdone
  rw [completed_acc_measure _ _ (fun rs : List R => (rs : Multiset R))
    (fun a e => by
      show ((a ++ [e] : List R) : Multiset R) = ((a : List R) : Multiset R) + {e}
      rw [← Multiset.coe_singleton e, ← Multiset.coe_add]) sched n tasks [] hn hdone]
  rw [show (([] : List R) : Multiset R) = 0 from rfl, zero_add,
    sum_map_coe_flatMap (fun t => (reducer t.1 t.2).1) tasks]

/-- The reduce queue produced by `_shuffle` is the shuffle dict itself, in
iteration order: one task per entry. -/
theorem shuffle_eq (d : List (K × List V)) : shuffle d = d := by
  unfold shuffle
  suffices h : ∀ q : List (K × List V), d.foldl (fun q p => q ++ [p]) q = q ++ d by
    simpa using h []
  induction d with
  | nil => intro q; simp
  | cons p rest ih =>
    intro q
    rw [List.foldl_cons, ih]
    simp

theorem dictPairs_append_middle (l r : List (K × List V)) (k : K) (vs : List V) :
    dictPairs (l ++ (k, vs) :: r)
      = dictPairs (l ++ r) + ((vs.map fun v => (k, v) : List (K × V)) : Multiset (K × V)) := by
  induction l with
  | nil => rw [List.nil_append, List.nil_append, dictPairs_cons]; abel
  | cons q m ihl =>
    rw [List.cons_append, List.cons_append, dictPairs_cons, dictPairs_cons, ihl]
    abel

/-- Two nodup-keys dicts with no empty value lists and equal pair multisets
have, entry for entry, the same image under any function that only depends on
the key and the multiset of its values. -/
theorem dict_ext_map {X : Type} (f : K × List V → X)
    (hf : ∀ k vs vs', List.Perm vs vs' → f (k, vs) = f (k, vs')) :
    ∀ (d₁ d₂ : List (K × List V)),
      NodupKeys d₁ → NodupKeys d₂ →
      (∀ p ∈ d₁, p.2 ≠ []) → (∀ p ∈ d₂, p.2 ≠ []) →
      dictPairs d₁ = dictPairs d₂ →
      ((d₁.map f : List X) : Multiset X) = ((d₂.map f : List X) : Multiset X) := by
  intro d₁
  induction d₁ with
  | nil =>
    intro d₂ _ _ _ hne₂ hpairs
    rcases d₂ with _ | ⟨⟨k, vs⟩, rest⟩
    · rfl
    · exfalso
      have hvne : vs ≠ [] := hne₂ (k, vs) (List.mem_cons_self _ _)
      obtain ⟨v, hv⟩ := List.exists_mem_of_length_pos (List.length_pos.2 hvne)
      have hmem : (k, v) ∈ dictPairs ((k, vs) :: rest) :=
        (mem_dictPairs _ k v).2 ⟨vs, List.mem_cons_self _ _, hv⟩
      rw [← hpairs, dictPairs_nil] at hmem
      exact absurd hmem (Multiset.not_mem_zero _)
  | cons p t ih =>
    intro d₂ hnd₁ hnd₂ hne₁ hne₂ hpairs
    obtain ⟨k, vs⟩ := p
    -- the key k occurs in d₂
    have hvne : vs ≠ [] := hne₁ (k, vs) (List.mem_cons_self _ _)
    have hkd₂ : k ∈ d₂.map Prod.fst := by
      rw [mem_keys_iff_dictPairs d₂ k hne₂, ← hpairs]
      obtain ⟨v, hv⟩ := List.exists_mem_of_length_pos (List.length_pos.2 hvne)
      exact ⟨v, (mem_dictPairs _ k v).2 ⟨vs, List.mem_cons_self _ _, hv⟩⟩
    rw [List.mem_map] at hkd₂
    obtain ⟨⟨k₂, vs₂⟩, hp₂, hk₂⟩ := hkd₂
    simp only at hk₂
    rw [hk₂] at hp₂
    obtain ⟨l, r, hd₂⟩ := List.append_of_mem hp₂
    subst hd₂
    -- matching entries carry permuted value lists
    have hvals₁ : keyVals (dictPairs ((k, vs) :: t)) k = (vs : Multiset V) :=
      keyVals_dictPairs _ k vs hnd₁ (List.mem_cons_self _ _)
    have hvals₂ : keyVals (dictPairs (l ++ (k, vs₂) :: r)) k = (vs₂ : Multiset V) :=
      keyVals_dictPairs _ k vs₂ hnd₂ hp₂
    have hperm : (vs : Multiset V) = (vs₂ : Multiset V) := by
      rw [← hvals₁, ← hvals₂, hpairs]
    -- remove the matching entries and recurse
    have hpairs_split := dictPairs_append_middle l r k vs₂
    have hpairs_head : dictPairs ((k, vs) :: t)
        = dictPairs t + ((vs.map fun v => (k, v) : List (K × V)) : Multiset (K × V)) := by
      rw [dictPairs_cons]; abel
    have hmapeq : ((vs.map fun v => (k, v) : List (K × V)) : Multiset (K × V))
        = ((vs₂.map fun v => (k, v) : List (K × V)) : Multiset (K × V)) := by
      have : Multiset.map (fun v => (k, v)) (vs : Multiset V)
          = Multiset.map (fun v => (k, v)) (vs₂ : Multiset V) := by rw [hperm]
      simpa using this
    have hrec : dictPairs t = dictPairs (l ++ r) := by
      have h0 : dictPairs t + ((vs.map fun v => (k, v) : List (K × V)) : Multiset (K × V))
          = dictPairs (l ++ r) + ((vs.map fun v => (k, v) : List (K × V)) : Multiset (K × V)) := by
        rw [← hpairs_head, hpairs, hpairs_split, hmapeq]
      exact add_right_cancel h0
    have hnd₁' : NodupKeys t := by
      unfold NodupKeys at hnd₁ ⊢
      simp only [List.map_cons] at hnd₁
      exact (List.nodup_cons.1 hnd₁).2
    have hnd₂' : NodupKeys (l ++ r) := by
      unfold NodupKeys at hnd₂ ⊢
      simp only [List.map_append, List.map_cons] at hnd₂ ⊢
      rw [List.nodup_append] at hnd₂ ⊢
      obtain ⟨h1, h2, h3⟩ := hnd₂
      exact ⟨h1, (List.nodup_cons.1 h2).2,
        fun a ha hb => h3 ha (List.mem_cons_of_mem _ hb)⟩
    have hne₁' : ∀ p ∈ t, p.2 ≠ [] := fun p hp => hne₁ p (List.mem_cons_of_mem _ hp)
    have hne₂' : ∀ p ∈ l ++ r, p.2 ≠ [] := by
      intro p hp
      rcases List.mem_append.1 hp with hp | hp
      · exact hne₂ p (List.mem_append.2 (Or.inl hp))
      · exact hne₂ p (List.mem_append.2 (Or.inr (List.mem_cons_of_mem _ hp)))
    have htail := ih (l ++ r) hnd₁' hnd₂' hne₁' hne₂' hrec
    -- reassemble
    have hfeq : f (k, vs) = f (k, vs₂) := hf k vs vs₂ (Multiset.coe_eq_coe.1 hperm)
    rw [List.map_cons, List.map_append, List.map_cons]
    rw [show ((f (k, vs) :: t.map f : List X) : Multiset X)
        = (t.map f : Multiset X) + {f (k, vs)} by
      rw [← Multiset.coe_singleton (f (k, vs)), Multiset.coe_add]
      exact Multiset.coe_eq_coe.2 (List.perm_append_singleton _ _).symm]
    rw [show ((l.map f ++ f (k, vs₂) :: r.map f : List X) : Multiset X)
        = ((l.map f ++ r.map f : List X) : Multiset X) + {f (k, vs₂)} by
      rw [← Multiset.coe_singleton (f (k, vs₂)), Multiset.coe_add]
      have hmid : List.Perm (l.map f ++ f (k, vs₂) :: r.map f)
          (f (k, vs₂) :: (l.map f ++ r.map f)) := List.perm_middle
      exact Multiset.coe_eq_coe.2
        (hmid.trans (List.perm_append_singleton (f (k, vs₂)) (l.map f ++ r.map f)).symm)]
    rw [htail, hfeq, List.map_append]

/-! ### A canonical completing schedule

Worker 0 drains the whole queue on its own; afterwards every worker observes
the empty queue once and terminates.  This exhibits, for every pool size and
input, a schedule describing a completed execution of the phase. -/

theorem get?_set_self {α : Type} {l : List α} {i : Nat} {w : α} (x : α)
    (h : l.get? i = some w) : (l.set i x).get? i = some x := by
  induction l generalizing i with
  | nil => simp at h
  | cons a t ih =>
    cases i with
    | zero => rfl
    | succ j => exact ih (by simpa using h)

theorem get?_set_of_ne {α : Type} (l : List α) (x : α) :
    ∀ {i j : Nat}, i ≠ j → (l.set i x).get? j = l.get? j := by
  induction l with
  | nil => intro i j _; simp
  | cons a t ih =>
    intro i j hne
    cases i with
    | zero =>
      cases j with
      | zero => exact absurd rfl hne
      | succ j' => rfl
    | succ i' =>
      cases j with
      | zero => rfl
      | succ j' => exact ih (fun he => hne (by rw [he]))

theorem set_set_same {α : Type} (l : List α) (i : Nat) (x y : α) :
    (l.set i x).set i y = l.set i y := by
  induction l generalizing i with
  | nil => rfl
  | cons a t ih =>
    cases i with
    | zero => rfl
    | succ j => simp only [List.set]; rw [ih]

theorem set_eq_of_get? {α : Type} {l : List α} {i : Nat} {x : α}
    (h : l.get? i = some x) : l.set i x = l := by
  induction l generalizing i with
  | nil => rfl
  | cons a t ih =>
    cases i with
    | zero => simp only [List.get?] at h; cases h; rfl
    | succ j =>
      simp only [List.get?] at h
      simp only [List.set]
      rw [ih h]

/-- Worker 0 appends all remaining emissions of its current task. -/
theorem emitAll (proc : T → List E × Bool) (app : A → E → A) (ems : List E) :
    ∀ (fl : Bool) (q : List T) (a : A) (ws : List (WStatus E)),
      ws.get? 0 = some (.emitting ems fl) →
      runPhase proc app (List.replicate ems.length 0) ⟨q, a, ws⟩
        = ⟨q, ems.foldl app a, ws.set 0 (.emitting [] fl)⟩ := by
  induction ems with
  | nil =>
    intro fl q a ws h
    simp only [List.length_nil, List.replicate_zero]
    rw [show runPhase proc app [] ⟨q, a, ws⟩ = ⟨q, a, ws⟩ from rfl]
    rw [List.foldl_nil, set_eq_of_get? h]
  | cons e rest ih =>
    intro fl q a ws h
    rw [show (e :: rest).length = rest.length + 1 from rfl, List.replicate_succ]
    rw [runPhase_cons]
    rw [phaseStep_emit_cons proc app h]
    rw [ih fl q (app a e) (ws.set 0 (.emitting rest fl)) (get?_set_self _ h)]
    rw [set_set_same, List.foldl_cons]

/-- Worker 0 processes one whole task: pop, emit everything, go back idle. -/
theorem oneTask (proc : T → List E × Bool) (app : A → E → A)
    (t : T) (q : List T) (a : A) (ws : List (WStatus E))
    (h : ws.get? 0 = some .idle) :
    runPhase proc app (List.replicate (2 + (proc t).1.length) 0) ⟨t :: q, a, ws⟩
      = ⟨q, (proc t).1.foldl app a, ws.set 0 .idle⟩ := by
  rw [show 2 + (proc t).1.length = ((proc t).1.length + 1) + 1 by omega]
  rw [List.replicate_succ, runPhase_cons]
  rw [phaseStep_idle_cons proc app h rfl]
  rw [show List.replicate ((proc t).1.length + 1) 0
      = List.replicate (proc t).1.length 0 ++ [0] from by rw [List.replicate_succ']]
  rw [runPhase_append]
  rw [emitAll proc app (proc t).1 (proc t).2 q a _ (get?_set_self _ h)]
  rw [set_set_same]
  rw [show runPhase proc app [0] (⟨q, (proc t).1.foldl app a,
        ws.set 0 (.emitting [] (proc t).2)⟩ : PhaseState T E A)
      = phaseStep proc app ⟨q, (proc t).1.foldl app a,
          ws.set 0 (.emitting [] (proc t).2)⟩ 0 from rfl]
  rw [phaseStep_emit_nil proc app (get?_set_self _ h)]
  rw [set_set_same]

/-- Worker 0 drains the entire queue. -/
theorem drainAll (proc : T → List E × Bool) (app : A → E → A) (tasks : List T) :
    ∀ (a : A) (ws : List (WStatus E)), ws.get? 0 = some .idle →
      runPhase proc app (tasks.flatMap fun t => List.replicate (2 + (proc t).1.length) 0)
          ⟨tasks, a, ws⟩
        = ⟨[], tasks.foldl (fun a t => (proc t).1.foldl app a) a, ws.set 0 .idle⟩ := by
  induction tasks with
  | nil =>
    intro a ws h
    rw [List.flatMap_nil]
    rw [show runPhase proc app [] ⟨[], a, ws⟩ = ⟨[], a, ws⟩ from rfl]
    rw [List.foldl_nil, set_eq_of_get? h]
  | cons t rest ih =>
    intro a ws h
    rw [List.flatMap_cons, runPhase_append]
    rw [oneTask proc app t rest a ws h]
    rw [ih ((proc t).1.foldl app a) (ws.set 0 .idle) (get?_set_self _ h)]
    rw [set_set_same, List.foldl_cons]

/-- Mark the first `k` workers as terminated. -/
def setDone : Nat → List (WStatus E) → List (WStatus E)
  | 0, ws => ws
  | k + 1, ws => (setDone k ws).set k .done

theorem length_setDone (k : Nat) (ws : List (WStatus E)) :
    (setDone k ws).length = ws.length := by
  induction k with
  | zero => rfl
  | succ j ih => rw [setDone, List.length_set, ih]

theorem get?_setDone_ge (k : Nat) (ws : List (WStatus E)) (j : Nat) (h : k ≤ j) :
    (setDone k ws).get? j = ws.get? j := by
  induction k with
  | zero => rfl
  | succ m ih =>
    rw [setDone, get?_set_of_ne _ _ (by omega), ih (by omega)]

theorem get?_setDone_lt (k : Nat) (ws : List (WStatus E)) (j : Nat)
    (hj : j < k) (hlen : j < ws.length) :
    (setDone k ws).get? j = some .done := by
  induction k with
  | zero => omega
  | succ m ih =>
    rw [setDone]
    by_cases hjm : j = m
    · subst hjm
      have hlt : j < (setDone j ws).length := by rw [length_setDone]; exact hlen
      have hw : (setDone j ws).get? j = some ((setDone j ws).get ⟨j, hlt⟩) :=
        List.get?_eq_get hlt
      exact get?_set_self _ hw
    · rw [get?_set_of_ne _ _ (fun he => hjm he.symm)]
      exact ih (by omega)

theorem set_eq_of_get?_none {α : Type} {l : List α} {i : Nat} (x : α)
    (h : l.get? i = none) : l.set i x = l := by
  induction l generalizing i with
  | nil => rfl
  | cons a t ih =>
    cases i with
    | zero => simp [List.get?] at h
    | succ j =>
      simp only [List.get?] at h
      simp only [List.set]
      rw [ih h]

/-- Once the queue is empty, scheduling each of the `n` workers once parks
them all: an idle worker observes the empty queue and terminates, a
terminated worker does nothing. -/
theorem parkAll (proc : T → List E × Bool) (app : A → E → A) (a : A) :
    ∀ (k : Nat) (ws : List (WStatus E)),
      (∀ w ∈ ws, w = WStatus.idle ∨ w = WStatus.done) →
      runPhase proc app (List.range k) ⟨[], a, ws⟩ = ⟨[], a, setDone k ws⟩ := by
  intro k
  induction k with
  | zero => intro ws _; rfl
  | succ m ih =>
    intro ws hws
    rw [List.range_succ, runPhase_append, ih ws hws]
    rw [show runPhase proc app [m] (⟨[], a, setDone m ws⟩ : PhaseState T E A)
        = phaseStep proc app ⟨[], a, setDone m ws⟩ m from rfl]
    rcases hg : (setDone m ws).get? m with _ | w
    · rw [phaseStep_none proc app hg]
      rw [show setDone (m + 1) ws = (setDone m ws).set m .done from rfl,
        set_eq_of_get?_none _ hg]
    · have hg0 : ws.get? m = some w := by
        rw [← get?_setDone_ge m ws m (le_refl m)]
        exact hg
      rcases hws w (List.get?_mem hg0) with hw | hw
      · subst hw
        rw [phaseStep_idle_nil proc app hg rfl]
        rfl
      · subst hw
        rw [phaseStep_done proc app hg]
        rw [show setDone (m + 1) ws = (setDone m ws).set m .done from rfl,
          set_eq_of_get? hg]

/-- The canonical completing schedule of a phase: worker 0 drains the whole
queue, then every worker observes the empty queue once and terminates. -/
def drainSched (proc : T → List E × Bool) (tasks : List T) (n : Nat) : List Nat :=
  (tasks.flatMap fun t => List.replicate (2 + (proc t).1.length) 0) ++ List.range n

/-- Running the canonical schedule from the initial phase state terminates
every worker and drains the queue (for a nonempty pool). -/
theorem runPhase_drainSched (proc : T → List E × Bool) (app : A → E → A)
    (tasks : List T) (n : Nat) (a : A) (hn : 1 ≤ n) :
    runPhase proc app (drainSched proc tasks n) (initPhase n tasks a)
      = ⟨[], tasks.foldl (fun a t => (proc t).1.foldl app a) a,
          setDone n (List.replicate n .idle)⟩ := by
  unfold drainSched initPhase
  rw [runPhase_append]
  have h0 : (List.replicate n (WStatus.idle : WStatus E)).get? 0 = some .idle := by
    cases n with
    | zero => omega
    | succ m => rfl
  rw [drainAll proc app tasks a _ h0, set_eq_of_get? h0]
  exact parkAll proc app _ n _ (fun w hw => Or.inl (List.eq_of_mem_replicate hw))

theorem allDone_setDone_replicate (q : List T) (a : A) (n : Nat) :
    allDone (⟨q, a, setDone n (List.replicate n (WStatus.idle : WStatus E))⟩
      : PhaseState T E A) = true := by
  unfold allDone
  rw [List.all_eq_true]
  intro w hw
  rw [List.mem_iff_get?] at hw
  obtain ⟨j, hj⟩ := hw
  have hlen : j < n := by
    obtain ⟨hlt, _⟩ := List.get?_eq_some.1 hj
    rw [length_setDone, List.length_replicate] at hlt
    exact hlt
  rw [get?_setDone_lt n _ j hlen (by rw [List.length_replicate]; exact hlen)] at hj
  cases hj
  rfl

/-- The canonical schedule completes any phase, for every pool size (with
zero workers the phase is vacuously complete; the queue simply stays full). -/
theorem allDone_drainSched (proc : T → List E × Bool) (app : A → E → A)
    (tasks : List T) (a : A) (n : Nat) :
    allDone (runPhase proc app (drainSched proc tasks n) (initPhase n tasks a)) = true := by
  cases n with
  | zero =>
    rw [runPhase_no_workers proc app _ _ (by rfl)]
    rfl
  | succ m =>
    rw [runPhase_drainSched proc app tasks (m + 1) a (by omega)]
    exact allDone_setDone_replicate _ _ _

/-! ### Properties of a completed run -/

/-- Inversion of a successful `run`: both phases completed, and the returned
collections are the phase results. -/
theorem run_eq_some (fw : MapReduceFramework IK IV K V R)
    (input : List (IK × IV)) (mapper : IK → IV → List (K × V) × Bool)
    (reducer : K → List V → List R × Bool) (ms rs : List Nat)
    (res : List R) (st : MapReduceFramework IK IV K V R)
    (h : fw.run input mapper reducer ms rs = some (res, st)) :
    allDone (mapPhase mapper fw.num_mappers input ms) = true
    ∧ allDone (reducePhase reducer fw.num_reducers
        (shuffle (mapPhase mapper fw.num_mappers input ms).acc) rs) = true
    ∧ res = (reducePhase reducer fw.num_reducers
        (shuffle (mapPhase mapper fw.num_mappers input ms).acc) rs).acc
    ∧ st = { fw with
        map_queue := (mapPhase mapper fw.num_mappers input ms).queue,
        shuffle_dict := (mapPhase mapper fw.num_mappers input ms).acc,
        reduce_queue := (reducePhase reducer fw.num_reducers
          (shuffle (mapPhase mapper fw.num_mappers input ms).acc) rs).queue,
        results := (reducePhase reducer fw.num_reducers
          (shuffle (mapPhase mapper fw.num_mappers input ms).acc) rs).acc } := by
  unfold MapReduceFramework.run at h
  by_cases h1 : allDone (mapPhase mapper fw.num_mappers input ms) = true
  · rw [if_pos h1] at h
    by_cases h2 : allDone (reducePhase reducer fw.num_reducers
        (shuffle (mapPhase mapper fw.num_mappers input ms).acc) rs) = true
    · rw [if_pos h2] at h
      have hp := Option.some.inj h
      exact ⟨h1, h2, congrArg Prod.fst hp.symm, congrArg Prod.snd hp.symm⟩
    · rw [if_neg h2] at h
      cases h
  · rw [if_neg h1] at h
    cases h

/-- Every run has a completed execution: the canonical drain schedules drive
every worker of both pools to termination, so `run` returns. -/
theorem run_total (fw : MapReduceFramework IK IV K V R)
    (input : List (IK × IV)) (mapper : IK → IV → List (K × V) × Bool)
    (reducer : K → List V → List R × Bool) :
    ∃ ms rs res st, fw.run input mapper reducer ms rs = some (res, st) := by
  refine ⟨drainSched (fun t => mapper t.1 t.2) input fw.num_mappers,
    drainSched (fun t => reducer t.1 t.2)
      (shuffle (mapPhase mapper fw.num_mappers input
        (drainSched (fun t => mapper t.1 t.2) input fw.num_mappers)).acc) fw.num_reducers,
    ?_⟩
  unfold MapReduceFramework.run mapPhase reducePhase
  rw [if_pos (allDone_drainSched _ _ input [] fw.num_mappers)]
  rw [if_pos (allDone_drainSched _ _ _ [] fw.num_reducers)]
  exact ⟨_, _, rfl⟩

/-! ### The concrete jobs of `mapreduce_jobs.py` -/

/-- A validated passenger record as produced by `PassengerDataParser.parse`:
the six CSV fields plus the parsed departure timestamp. -/
structure PassengerRecord where
  passenger_id : String
  flight_id : String
  from_airport : String
  dest_airport : String
  departure_time : String
  flight_time : String
  departure_datetime : Int
deriving DecidableEq

/-- `PassengerFlightCountMapper.map`: ignores the input key and yields the
single pair `(record['passenger_id'], 1)`; on a `PassengerRecord` the field
access never raises, so the invocation never fails. -/
def PassengerFlightCountMapper.map (k : Nat) (record : PassengerRecord) :
    List (String × Nat) × Bool :=
  ([(record.passenger_id, 1)], false)

/-- `PassengerFlightCountReducer.reduce`: yields the single pair
`(key, sum(values))`; `sum` is a left fold of addition starting at 0.  The
invocation never fails. -/
def PassengerFlightCountReducer.reduce (key : String) (values : List Nat) :
    List (String × Nat) × Bool :=
  ([(key, values.foldl (· + ·) 0)], false)

/-! ### Canonical grouping and fold reducers -/

/-- Sequential grouping of a pair list into a dict, the reference value the
concurrent shuffle table is compared against. -/
def groupCanon (l : List (K × V)) : List (K × List V) :=
  l.foldl (fun d e => dictAppend d e.1 e.2) []

theorem dictPairs_foldl (l : List (K × V)) :
    ∀ d : List (K × List V),
      dictPairs (l.foldl (fun d e => dictAppend d e.1 e.2) d) = dictPairs d + (l : Multiset (K × V)) := by
  induction l with
  | nil => intro d; simp
  | cons e rest ih =>
    intro d
    rw [List.foldl_cons, ih, dictPairs_dictAppend]
    rw [show ((e :: rest : List (K × V)) : Multiset (K × V))
        = (e ::ₘ (rest : Multiset (K × V))) from rfl]
    rw [show (e ::ₘ (rest : Multiset (K × V))) = {e} + (rest : Multiset (K × V)) from
      (Multiset.singleton_add e _).symm]
    abel

theorem dictPairs_groupCanon (l : List (K × V)) :
    dictPairs (groupCanon l) = (l : Multiset (K × V)) := by
  unfold groupCanon
  rw [dictPairs_foldl, dictPairs_nil, zero_add]

theorem nodupKeys_groupCanon (l : List (K × V)) : NodupKeys (groupCanon l) := by
  unfold groupCanon
  suffices h : ∀ d : List (K × List V), NodupKeys d →
      NodupKeys (l.foldl (fun d e => dictAppend d e.1 e.2) d) by
    exact h [] (by simp [NodupKeys])
  induction l with
  | nil => intro d hd; exact hd
  | cons e rest ih =>
    intro d hd
    rw [List.foldl_cons]
    exact ih _ (nodupKeys_dictAppend d e.1 e.2 hd)

theorem vals_ne_nil_groupCanon (l : List (K × V)) :
    ∀ p ∈ groupCanon l, p.2 ≠ [] := by
  unfold groupCanon
  suffices h : ∀ d : List (K × List V), (∀ p ∈ d, p.2 ≠ []) →
      ∀ p ∈ l.foldl (fun d e => dictAppend d e.1 e.2) d, p.2 ≠ [] by
    exact h [] (by simp)
  induction l with
  | nil => intro d hd; exact hd
  | cons e rest ih =>
    intro d hd
    rw [List.foldl_cons]
    exact ih _ (vals_ne_nil_dictAppend d e.1 e.2 hd)

/-- A reducer that folds a commutative-associative operation over its value
collection and yields one `(key, folded value)` pair, like the repository's
sum reducer; it never raises. -/
def foldReducer (op : V → V → V) (e : V) : K → List V → List (K × V) × Bool :=
  fun k vs => ([(k, vs.foldl op e)], false)

/-- Left folds of an operation satisfying the exchange law are invariant
under permutation of the list. -/
theorem foldl_perm_invariant {V : Type} (op : V → V → V)
    (hrc : ∀ a b c, op (op a b) c = op (op a c) b)
    {l₁ l₂ : List V} (hp : List.Perm l₁ l₂) :
    ∀ e, l₁.foldl op e = l₂.foldl op e := by
  induction hp with
  | nil => intro e; rfl
  | cons x _ ih =>
    intro e
    rw [List.foldl_cons, List.foldl_cons, ih]
  | swap x y l =>
    intro e
    rw [List.foldl_cons, List.foldl_cons, List.foldl_cons, List.foldl_cons, hrc]
  | trans _ _ ih1 ih2 =>
    intro e
    rw [ih1, ih2]

theorem exchange_of_comm_assoc {V : Type} (op : V → V → V)
    (hcomm : ∀ a b, op a b = op b a)
    (hassoc : ∀ a b c, op (op a b) c = op a (op b c)) :
    ∀ a b c, op (op a b) c = op (op a c) b := by
  intro a b c
  rw [hassoc, hassoc, hcomm b c]

/-! ### Results of a completed run -/

/-- The result collection of a successful run with nonempty pools is, as a
multiset, the concatenation of the reducer outputs over the shuffle-table
entries. -/
theorem run_results (fw : MapReduceFramework IK IV K V R)
    (input : List (IK × IV)) (mapper : IK → IV → List (K × V) × Bool)
    (reducer : K → List V → List R × Bool) (ms rs : List Nat)
    (res : List R) (st : MapReduceFramework IK IV K V R)
    (h : fw.run input mapper reducer ms rs = some (res, st))
    (hr : 1 ≤ fw.num_reducers) :
    ((res : List R) : Multiset R)
      = (((mapPhase mapper fw.num_mappers input ms).acc.flatMap
          fun t => (reducer t.1 t.2).1 : List R) : Multiset R) := by
  obtain ⟨hm1, hr1, hres, hst⟩ := run_eq_some fw input mapper reducer ms rs res st h
  rw [hres]
  rw [show shuffle (mapPhase mapper fw.num_mappers input ms).acc
      = (mapPhase mapper fw.num_mappers input ms).acc from
    shuffle_eq _] at hr1 ⊢
  exact reducePhase_results reducer fw.num_reducers _ rs hr hr1

/-- With zero reducer threads the reduce queue is never drained and the
returned result collection is empty. -/
theorem run_zero_reducers (fw : MapReduceFramework IK IV K V R)
    (input : List (IK × IV)) (mapper : IK → IV → List (K × V) × Bool)
    (reducer : K → List V → List R × Bool) (ms rs : List Nat)
    (res : List R) (st : MapReduceFramework IK IV K V R)
    (h : fw.run input mapper reducer ms rs = some (res, st))
    (hr : fw.num_reducers = 0) :
    res = [] ∧ st.reduce_queue = shuffle (mapPhase mapper fw.num_mappers input ms).acc := by
  obtain ⟨hm1, hr1, hres, hst⟩ := run_eq_some fw input mapper reducer ms rs res st h
  have hred : reducePhase reducer fw.num_reducers
      (shuffle (mapPhase mapper fw.num_mappers input ms).acc) rs
      = initPhase fw.num_reducers (shuffle (mapPhase mapper fw.num_mappers input ms).acc) [] := by
    unfold reducePhase
    apply runPhase_no_workers
    rw [hr]
    rfl
  constructor
  · rw [hres, hred]
    rfl
  · rw [hst, hred]
    rfl

/-- With zero mapper threads the map queue is never drained: the final state
still holds the whole input in the map queue, the shuffle table stays empty,
and the returned result collection is empty. -/
theorem run_zero_mappers (fw : MapReduceFramework IK IV K V R)
    (input : List (IK × IV)) (mapper : IK → IV → List (K × V) × Bool)
    (reducer : K → List V → List R × Bool) (ms rs : List Nat)
    (res : List R) (st : MapReduceFramework IK IV K V R)
    (h : fw.run input mapper reducer ms rs = some (res, st))
    (hm : fw.num_mappers = 0) :
    res = [] ∧ st.map_queue = input ∧ st.shuffle_dict = [] := by
  obtain ⟨hm1, hr1, hres, hst⟩ := run_eq_some fw input mapper reducer ms rs res st h
  have hmap : mapPhase mapper fw.num_mappers input ms
      = initPhase fw.num_mappers input [] := by
    unfold mapPhase
    apply runPhase_no_workers
    rw [hm]
    rfl
  have hshuffle : shuffle (mapPhase mapper fw.num_mappers input ms).acc = [] := by
    rw [hmap]
    rfl
  have hres2 : res = [] := by
    rcases Nat.eq_zero_or_pos fw.num_reducers with hr0 | hrpos
    · exact (run_zero_reducers fw input mapper reducer ms rs res st h hr0).1
    · have := run_results fw input mapper reducer ms rs res st h hrpos
      rw [hmap] at this
      rw [show (initPhase fw.num_mappers input
          ([] : List (K × List V)) : PhaseState (IK × IV) (K × V) (List (K × List V))).acc
          = [] from rfl] at this
      rw [List.flatMap_nil] at this
      rw [← Multiset.coe_eq_zero]
      exact this
  refine ⟨hres2, ?_, ?_⟩
  · rw [hst, hmap]
    rfl
  · rw [hst, hmap]
    rfl

theorem flatMap_singleton_eq_map {α β : Type} (g : α → β) (l : List α) :
    (l.flatMap fun x => [g x]) = l.map g := by
  induction l with
  | nil => rfl
  | cons a t ih => rw [List.flatMap_cons, ih, List.map_cons, List.singleton_append]

/-- The result collection of a successful run with a fold reducer over a
commutative-associative operation equals, as a multiset, the canonical
sequential grouping of all mapper emissions with the fold applied per key:
it does not depend on the pool sizes or the schedules. -/
theorem run_fold_results (fw : MapReduceFramework IK IV K V (K × V))
    (input : List (IK × IV)) (mapper : IK → IV → List (K × V) × Bool)
    (op : V → V → V) (e : V)
    (hcomm : ∀ a b, op a b = op b a)
    (hassoc : ∀ a b c, op (op a b) c = op a (op b c))
    (ms rs : List Nat) (res : List (K × V)) (st : MapReduceFramework IK IV K V (K × V))
    (h : fw.run input mapper (foldReducer op e) ms rs = some (res, st))
    (hm : 1 ≤ fw.num_mappers) (hr : 1 ≤ fw.num_reducers) :
    ((res : List (K × V)) : Multiset (K × V))
      = (((groupCanon (allEmissions mapper input)).map
          (fun p => (p.1, p.2.foldl op e)) : List (K × V)) : Multiset (K × V)) := by
  obtain ⟨hm1, _, _, _⟩ := run_eq_some fw input mapper (foldReducer op e) ms rs res st h
  have hres := run_results fw input mapper (foldReducer op e) ms rs res st h hr
  rw [show ((mapPhase mapper fw.num_mappers input ms).acc.flatMap
      fun t => (foldReducer op e t.1 t.2).1)
      = (mapPhase mapper fw.num_mappers input ms).acc.map
          (fun p => (p.1, p.2.foldl op e)) from
    flatMap_singleton_eq_map _ _] at hres
  rw [hres]
  apply dict_ext_map (fun p : K × List V => (p.1, p.2.foldl op e))
  · intro k vs vs' hperm
    rw [foldl_perm_invariant op (exchange_of_comm_assoc op hcomm hassoc) hperm e]
  · exact mapPhase_nodupKeys mapper fw.num_mappers input ms
  · exact nodupKeys_groupCanon _
  · exact mapPhase_vals_ne_nil mapper fw.num_mappers input ms
  · exact vals_ne_nil_groupCanon _
  · rw [mapPhase_pairs mapper fw.num_mappers input ms hm hm1, dictPairs_groupCanon]

theorem dictPairs_coe (d : List (K × List V)) :
    dictPairs d
      = ((d.flatMap fun p => p.2.map fun v => (p.1, v) : List (K × V)) : Multiset (K × V)) := rfl

theorem foldl_add_eq_sum (l : List Nat) : ∀ a : Nat, l.foldl (· + ·) a = a + l.sum := by
  induction l with
  | nil => intro a; simp
  | cons x t ih =>
    intro a
    rw [List.foldl_cons, ih, List.sum_cons, Nat.add_assoc]

theorem sum_map_one {α : Type} (l : List α) : (l.map fun _ => (1 : Nat)).sum = l.length := by
  induction l with
  | nil => rfl
  | cons x t ih => rw [List.map_cons, List.sum_cons, ih, List.length_cons, Nat.add_comm]

theorem sum_map_vals_sum (d : List (K × List Nat)) :
    (d.map fun p => p.2.sum).sum
      = ((d.flatMap fun p => p.2.map fun v => (p.1, v)).map Prod.snd).sum := by
  induction d with
  | nil => rfl
  | cons p rest ih =>
    rw [List.map_cons, List.sum_cons, List.flatMap_cons, List.map_append, List.sum_append, ih]
    have hfst : ((p.2.map fun v => (p.1, v)).map Prod.snd) = p.2 := by
      rw [List.map_map]
      exact List.map_id _
    rw [hfst]

theorem mem_map_fst {A B : Type} (l : List (A × B)) (k : A) :
    k ∈ l.map Prod.fst ↔ ∃ v, (k, v) ∈ l := by
  rw [List.mem_map]
  constructor
  · rintro ⟨p, hp, he⟩
    exact ⟨p.2, by rw [show (k, p.2) = p from by rw [← he]]; exact hp⟩
  · rintro ⟨v, hv⟩
    exact ⟨(k, v), hv, rfl⟩

theorem dict_nil_of_dictPairs_zero (d : List (K × List V))
    (hne : ∀ p ∈ d, p.2 ≠ []) (h : dictPairs d = 0) : d = [] := by
  rcases d with _ | ⟨⟨k, vs⟩, rest⟩
  · rfl
  · exfalso
    have hvne : vs ≠ [] := hne (k, vs) (List.mem_cons_self _ _)
    obtain ⟨v, hv⟩ := List.exists_mem_of_length_pos (List.length_pos.2 hvne)
    have hmem : (k, v) ∈ dictPairs ((k, vs) :: rest) :=
      (mem_dictPairs _ k v).2 ⟨vs, List.mem_cons_self _ _, hv⟩
    rw [h] at hmem
    exact Multiset.not_mem_zero _ hmem

/-- The first component of every result pair of a completed run is a key the
mapper emitted, provided the reducer only emits pairs carrying the key it was
given.  No assumption on the pool sizes is needed. -/
theorem run_keys_sub (fw : MapReduceFramework IK IV K V (K × W))
    (input : List (IK × IV)) (mapper : IK → IV → List (K × V) × Bool)
    (reducer : K → List V → List (K × W) × Bool) (ms rs : List Nat)
    (res : List (K × W)) (st : MapReduceFramework IK IV K V (K × W))
    (h : fw.run input mapper reducer ms rs = some (res, st))
    (hcarry : ∀ k' vs, ∀ p ∈ (reducer k' vs).1, p.1 = k')
    (k : K) (hk : k ∈ res.map Prod.fst) :
    k ∈ (allEmissions mapper input).map Prod.fst := by
  rcases Nat.eq_zero_or_pos fw.num_reducers with hr0 | hrpos
  · rw [(run_zero_reducers fw input mapper reducer ms rs res st h hr0).1] at hk
    simp at hk
  · have hres := run_results fw input mapper reducer ms rs res st h hrpos
    have hperm := Multiset.coe_eq_coe.1 hres
    rw [List.mem_map] at hk
    obtain ⟨p, hp, hpk⟩ := hk
    have hpflat := hperm.mem_iff.1 hp
    rw [List.mem_flatMap] at hpflat
    obtain ⟨t, ht, hpt⟩ := hpflat
    have htk : t.1 = k := by rw [← hpk, hcarry t.1 t.2 p hpt]
    rcases Nat.eq_zero_or_pos fw.num_mappers with hm0 | hmpos
    · exfalso
      have hmap : mapPhase mapper fw.num_mappers input ms
          = initPhase fw.num_mappers input [] := by
        unfold mapPhase
        apply runPhase_no_workers
        rw [hm0]
        rfl
      rw [hmap] at ht
      exact absurd ht (by simp [initPhase])
    · obtain ⟨hm1, _, _, _⟩ := run_eq_some fw input mapper reducer ms rs res st h
      have hpairs := mapPhase_pairs mapper fw.num_mappers input ms hmpos hm1
      have hkd : k ∈ (mapPhase mapper fw.num_mappers input ms).acc.map Prod.fst := by
        rw [← htk]
        exact List.mem_map_of_mem Prod.fst ht
      obtain ⟨v, hv⟩ := (mem_keys_iff_dictPairs _ k
        (mapPhase_vals_ne_nil mapper fw.num_mappers input ms)).1 hkd
      rw [hpairs, Multiset.mem_coe] at hv
      exact (mem_map_fst _ k).2 ⟨v, hv⟩

/-- Every key the mapper emitted reaches the result collection of a
completed run with nonempty pools, provided the reducer emits at least one
pair carrying the key it was given. -/
theorem run_keys_sup (fw : MapReduceFramework IK IV K V (K × W))
    (input : List (IK × IV)) (mapper : IK → IV → List (K × V) × Bool)
    (reducer : K → List V → List (K × W) × Bool) (ms rs : List Nat)
    (res : List (K × W)) (st : MapReduceFramework IK IV K V (K × W))
    (h : fw.run input mapper reducer ms rs = some (res, st))
    (hm : 1 ≤ fw.num_mappers) (hr : 1 ≤ fw.num_reducers)
    (hsome : ∀ k' vs, ∃ p ∈ (reducer k' vs).1, p.1 = k')
    (k : K) (hk : k ∈ (allEmissions mapper input).map Prod.fst) :
    k ∈ res.map Prod.fst := by
  obtain ⟨hm1, _, _, _⟩ := run_eq_some fw input mapper reducer ms rs res st h
  have hres := run_results fw input mapper reducer ms rs res st h hr
  have hperm := Multiset.coe_eq_coe.1 hres
  have hpairs := mapPhase_pairs mapper fw.num_mappers input ms hm hm1
  obtain ⟨v, hv⟩ := (mem_map_fst _ k).1 hk
  have hvd : (k, v) ∈ dictPairs (mapPhase mapper fw.num_mappers input ms).acc := by
    rw [hpairs, Multiset.mem_coe]
    exact hv
  obtain ⟨vs, hvs, _⟩ := (mem_dictPairs _ k v).1 hvd
  obtain ⟨p, hp, hpk⟩ := hsome k vs
  have hpres : p ∈ res := hperm.mem_iff.2 (by
    rw [List.mem_flatMap]
    exact ⟨(k, vs), hvs, hp⟩)
  rw [List.mem_map]
  exact ⟨p, hpres, hpk⟩

end MapReduceSpec

namespace DataParsersSpec

/-! ### Model of `AirportDataParser` from `data_parsers.py`

Strings are modelled as `List Char`.  `re.match` against a pattern of the
form `^…$` (without `re.MULTILINE`) succeeds on a string iff the core pattern
matches the whole string, or the string ends in a newline and the core
pattern matches everything before it; `pyMatch` captures this `$`
behaviour.  Coordinate strings accepted by `COORDINATE_PATTERN` are plain
decimals with at most 13 fractional digits, which `float` converts exactly
enough that every comparison against ±90 and ±180 performed by the validator
agrees with exact rational arithmetic, so `float` values are modelled as
rationals. -/

/-- Matching one character of `[A-Z]`. -/
def isUpperAZ (c : Char) : Bool := 'A' ≤ c && c ≤ 'Z'

/-- Core of `AIRPORT_CODE_PATTERN = ^[A-Z]{3}$`. -/
def codeCore (s : List Char) : Bool :=
  match s with
  | [a, b, c] => isUpperAZ a && isUpperAZ b && isUpperAZ c
  | _ => false

/-- Core of `AIRPORT_NAME_PATTERN = ^.{3,20}$` (`.` matches anything except a
newline). -/
def nameCore (s : List Char) : Bool :=
  decide (3 ≤ s.length) && decide (s.length ≤ 20) && s.all (fun c => c ≠ '\n')

/-- Numeric value of a digit string. -/
def digitsToNat (l : List Char) : Nat :=
  l.foldl (fun n c => n * 10 + (c.toNat - 48)) 0

/-- Decision for the tail of the coordinate pattern, on the digit prefix
`ip` and the remainder `rest` of the string: either nothing remains after the
digits, or a dot followed by 1 to 13 digits. -/
def coordSplit (ip rest : List Char) : Bool :=
  match rest with
  | [] => !ip.isEmpty
  | c :: frac =>
    decide (c = '.') && !ip.isEmpty && frac.all Char.isDigit
      && decide (1 ≤ frac.length) && decide (frac.length ≤ 13)

/-- Core of `COORDINATE_PATTERN = ^-?\\d+(\\.\\d{1,13})?$` after the optional
sign: one or more digits, optionally followed by `.` and 1 to 13 digits. -/
def coordBody (t : List Char) : Bool :=
  coordSplit (t.takeWhile Char.isDigit) (t.dropWhile Char.isDigit)

/-- Core of `COORDINATE_PATTERN = ^-?\\d+(\\.\\d{1,13})?$`. -/
def coordCore (s : List Char) : Bool :=
  match s with
  | [] => false
  | c :: rest => if c = '-' then coordBody rest else coordBody (c :: rest)

/-- Rational value of an unsigned decimal split into digit prefix and
remainder, defined on exactly the splits `coordSplit` accepts. -/
def parseSplit (ip rest : List Char) : Option ℚ :=
  match rest with
  | [] => if ip.isEmpty then none else some (mkRat (digitsToNat ip) 1)
  | c :: frac =>
    if decide (c = '.') && !ip.isEmpty && frac.all Char.isDigit
        && decide (1 ≤ frac.length) && decide (frac.length ≤ 13) then
      some (mkRat (digitsToNat ip * 10 ^ frac.length + digitsToNat frac) (10 ^ frac.length))
    else none

/-- Rational value of an unsigned decimal string. -/
def parseBody (t : List Char) : Option ℚ :=
  parseSplit (t.takeWhile Char.isDigit) (t.dropWhile Char.isDigit)

/-- Signed decimal value. -/
def parseCoord (s : List Char) : Option ℚ :=
  match s with
  | [] => none
  | c :: rest =>
    if c = '-' then (parseBody rest).map (fun q => -q) else parseBody (c :: rest)

/-- Python `re.match` of an anchored `^…$` pattern: the `$` also matches just
before one trailing newline. -/
def pyMatch (core : List Char → Bool) (s : List Char) : Bool :=
  core s || (decide (s.getLast? = some '\n') && core s.dropLast)

/-- Python `float(...)` on a string that passed the coordinate pattern:
`float` ignores surrounding whitespace, so a trailing newline accepted by the
`$` anchor is stripped before conversion. -/
def pyFloat (s : List Char) : Option ℚ :=
  parseCoord (if s.getLast? = some '\n' then s.dropLast else s)

/-- Model of `AirportDataParser._validate_airport_record`, line for line:
name pattern, code pattern, latitude pattern, longitude pattern, latitude
range check against [-90, 90], and then the longitude range block — which
converts the longitude but re-tests `lat_float` against [-180, 180]
(lines 250-251 of `data_parsers.py`). -/
def AirportDataParser.validate_airport_record
    (name code latitude longitude : List Char) : Bool :=
  if !(pyMatch nameCore name) then false
  else if !(pyMatch codeCore code) then false
  else if !(pyMatch coordCore latitude) then false
  else if !(pyMatch coordCore longitude) then false
  else
    match pyFloat latitude with
    | none => false
    | some lat_float =>
      if lat_float < -90 ∨ 90 < lat_float then false
      else
        match pyFloat longitude with
        | none => false
        | some _lon_float =>
          if lat_float < -180 ∨ 180 < lat_float then false
          else true

/-- An airport record as built by `AirportDataParser.parse`. -/
structure Airport where
  name : List Char
  code : List Char
  latitude : ℚ
  longitude : ℚ
deriving DecidableEq

/-- Assignment into a Python dict: replace in place or append a new entry. -/
def upsert {α : Type} (d : List (List Char × α)) (k : List Char) (v : α) :
    List (List Char × α) :=
  match d with
  | [] => [(k, v)]
  | (k', v') :: rest =>
    if k = k' then (k, v) :: rest else (k', v') :: upsert rest k v

/-- Model of `AirportDataParser.parse` on already-read CSV rows (the file
reading and CSV splitting are outside the model): skip rows without exactly
four fields, skip rows failing validation, skip rows whose coordinates do not
convert, and store the record under its code. -/
def AirportDataParser.parse (rows : List (List (List Char))) :
    List (List Char × Airport) :=
  rows.foldl
    (fun airports row =>
      match row with
      | [name, code, latitude, longitude] =>
        if AirportDataParser.validate_airport_record name code latitude longitude then
          match pyFloat latitude, pyFloat longitude with
          | some lat, some lon => upsert airports code ⟨name, code, lat, lon⟩
          | _, _ => airports
        else airports
      | _ => airports)
    []

/-- A string accepted by the coordinate pattern always converts: `coordSplit`
accepts exactly the splits on which `parseSplit` succeeds. -/
theorem parseSplit_isSome_of_coordSplit (ip rest : List Char)
    (h : coordSplit ip rest = true) : (parseSplit ip rest).isSome = true := by
  cases rest with
  | nil =>
    unfold coordSplit at h
    unfold parseSplit
    dsimp only at h ⊢
    have hne : ¬ (ip.isEmpty = true) := by
      intro hcon
      rw [hcon] at h
      exact absurd h (by decide)
    rw [if_neg hne]
    rfl
  | cons c frac =>
    unfold coordSplit at h
    unfold parseSplit
    dsimp only at h ⊢
    rw [if_pos h]
    rfl

theorem parseBody_isSome_of_coordBody (t : List Char) (h : coordBody t = true) :
    (parseBody t).isSome = true :=
  parseSplit_isSome_of_coordSplit _ _ h

theorem parseCoord_isSome_of_coordCore (s : List Char) (h : coordCore s = true) :
    (parseCoord s).isSome = true := by
  cases s with
  | nil => exact absurd h (by decide)
  | cons c rest =>
    unfold coordCore at h
    unfold parseCoord
    dsimp only at h ⊢
    by_cases hc : c = '-'
    · rw [if_pos hc] at h
      rw [if_pos hc]
      have hps := parseBody_isSome_of_coordBody rest h
      rcases hp : parseBody rest with _ | q
      · rw [hp] at hps
        exact absurd hps (by decide)
      · rfl
    · rw [if_neg hc] at h
      rw [if_neg hc]
      exact parseBody_isSome_of_coordBody (c :: rest) h

/-- A string accepted by the coordinate core pattern ends in a digit. -/
theorem coordBody_last_digit (t : List Char) (h : coordBody t = true) :
    ∃ d, t.getLast? = some d ∧ d.isDigit = true := by
  unfold coordBody at h
  rcases hd : t.dropWhile Char.isDigit with _ | ⟨c, frac⟩
  · rw [hd] at h
    unfold coordSplit at h
    dsimp only at h
    have ht : t.takeWhile Char.isDigit = t := by
      conv_rhs => rw [← (List.takeWhile_append_dropWhile Char.isDigit t)]
      rw [hd, List.append_nil]
    rw [ht] at h
    have hne : t ≠ [] := by
      intro hcon
      rw [hcon] at h
      exact absurd h (by decide)
    refine ⟨t.getLast hne, List.getLast?_eq_getLast_of_ne_nil hne, ?_⟩
    have hdig : ∀ x, x ∈ t → x.isDigit = true := by
      intro x hx
      have hx2 : x ∈ List.takeWhile Char.isDigit t := by
        rw [ht]
        exact hx
      exact List.mem_takeWhile_imp hx2
    exact hdig _ (List.getLast_mem hne)
  · rw [hd] at h
    unfold coordSplit at h
    dsimp only at h
    rw [Bool.and_eq_true, Bool.and_eq_true, Bool.and_eq_true, Bool.and_eq_true] at h
    obtain ⟨⟨⟨⟨hdot, hne⟩, hall⟩, hlen1⟩, hlen13⟩ := h
    have hfracne : frac ≠ [] := by
      intro hcon
      rw [hcon] at hlen1
      exact absurd hlen1 (by decide)
    have hsplit : t = t.takeWhile Char.isDigit ++ (c :: frac) := by
      conv_lhs => rw [← (List.takeWhile_append_dropWhile Char.isDigit t)]
      rw [hd]
    refine ⟨frac.getLast hfracne, ?_, ?_⟩
    · rw [hsplit, List.getLast?_append_of_ne_nil _ (List.cons_ne_nil c frac)]
      rw [show c :: frac = [c] ++ frac from rfl,
        List.getLast?_append_of_ne_nil _ hfracne]
      exact List.getLast?_eq_getLast_of_ne_nil hfracne
    · exact List.all_eq_true.1 hall _ (List.getLast_mem hfracne)

theorem coordCore_last_digit (s : List Char) (h : coordCore s = true) :
    ∃ d, s.getLast? = some d ∧ d.isDigit = true := by
  cases s with
  | nil => exact absurd h (by decide)
  | cons c rest =>
    unfold coordCore at h
    dsimp only at h
    by_cases hc : c = '-'
    · rw [if_pos hc] at h
      obtain ⟨d, hd1, hd2⟩ := coordBody_last_digit rest h
      have hrestne : rest ≠ [] := by
        intro hcon
        rw [hcon] at hd1
        cases hd1
      refine ⟨d, ?_, hd2⟩
      rw [show c :: rest = [c] ++ rest from rfl,
        List.getLast?_append_of_ne_nil _ hrestne]
      exact hd1
    · rw [if_neg hc] at h
      exact coordBody_last_digit (c :: rest) h

/-- A pattern-accepted coordinate string converts after newline stripping. -/
theorem pyFloat_isSome_of_pyMatch (s : List Char)
    (h : pyMatch coordCore s = true) : (pyFloat s).isSome = true := by
  unfold pyMatch at h
  unfold pyFloat
  rw [Bool.or_eq_true] at h
  by_cases hg : s.getLast? = some '\n'
  · rw [if_pos hg]
    rcases h with h | h
    · -- a string ending in a newline cannot match the core pattern,
      -- because a pattern-accepted string ends in a digit
      exfalso
      obtain ⟨d, hd1, hd2⟩ := coordCore_last_digit s h
      rw [hg] at hd1
      cases hd1
      exact absurd hd2 (by decide)
    · rw [Bool.and_eq_true] at h
      exact parseCoord_isSome_of_coordCore _ h.2
  · rw [if_neg hg]
    rcases h with h | h
    · exact parseCoord_isSome_of_coordCore s h
    · rw [Bool.and_eq_true] at h
      exact absurd (of_decide_eq_true h.1) hg

end DataParsersSpec



/-! ## The claims -/

open MapReduceSpec DataParsersSpec

/-- The concrete input of the spec's concrete scenario: five pairs, of which
the first three are mapped to key "P1" and the last two to key "P2". -/
def inputC2 : List (Nat × Nat) := [(0, 0), (1, 1), (2, 2), (3, 3), (4, 4)]

/-- A mapper sending the first three records to "P1" and the rest to "P2",
with value 1 each; it never raises. -/
def mapperC2 : Nat → Nat → List (String × Nat) × Bool :=
  fun _ v => ([(if v ≤ 2 then "P1" else "P2", 1)], false)

/-- C1.  Count conservation: for the counting job
(`PassengerFlightCountMapper` emitting `(passenger_id, 1)` per record and
`PassengerFlightCountReducer` summing), for every input list of records (on
which no invocation of these mapper and reducer functions ever fails) and
every completed execution of `run` with at least one mapper and one reducer
thread, the sum of all reduced counts equals the number of input records. -/
theorem claim_C1 (input : List (Nat × PassengerRecord)) (nm nr : Nat)
    (hm : 1 ≤ nm) (hr : 1 ≤ nr) (ms rs : List Nat)
    (res : List (String × Nat))
    (st : MapReduceFramework Nat PassengerRecord String Nat (String × Nat))
    (h : (MapReduceFramework.mk' nm nr).run input PassengerFlightCountMapper.map
        PassengerFlightCountReducer.reduce ms rs = some (res, st)) :
    (res.map Prod.snd).sum = input.length := by
  have hfold : PassengerFlightCountReducer.reduce = foldReducer (· + ·) (0 : Nat) := rfl
  rw [hfold] at h
  have hcanon := run_fold_results _ input PassengerFlightCountMapper.map (· + ·) 0
    Nat.add_comm Nat.add_assoc ms rs res st h hm hr
  have hperm := Multiset.coe_eq_coe.1 hcanon
  rw [(hperm.map Prod.snd).sum_eq, List.map_map]
  have hcong : (groupCanon (allEmissions PassengerFlightCountMapper.map input)).map
      (Prod.snd ∘ fun p : String × List Nat => (p.1, p.2.foldl (· + ·) 0))
      = (groupCanon (allEmissions PassengerFlightCountMapper.map input)).map
          (fun p => p.2.sum) := by
    apply List.map_congr_left
    intro p _
    show p.2.foldl (· + ·) 0 = p.2.sum
    rw [foldl_add_eq_sum, Nat.zero_add]
  rw [hcong, sum_map_vals_sum]
  have hdp := dictPairs_groupCanon (allEmissions PassengerFlightCountMapper.map input)
  rw [dictPairs_coe] at hdp
  have hperm2 := Multiset.coe_eq_coe.1 hdp
  rw [(hperm2.map Prod.snd).sum_eq]
  have hems : allEmissions PassengerFlightCountMapper.map input
      = input.map (fun t => (t.2.passenger_id, 1)) := by
    unfold allEmissions PassengerFlightCountMapper.map
    exact flatMap_singleton_eq_map _ input
  rw [hems, List.map_map]
  have : (input.map (Prod.snd ∘ fun t : Nat × PassengerRecord => (t.2.passenger_id, 1)))
      = input.map (fun _ => (1 : Nat)) := by
    apply List.map_congr_left
    intro t _
    rfl
  rw [this, sum_map_one]

/-- A passenger record used to exercise the counting job. -/
def recA : PassengerRecord := ⟨"AAA0000AA1", "AAA0000A", "AAA", "BBB", "0", "60", 0⟩

/-- A second passenger record with a different passenger id. -/
def recB : PassengerRecord := ⟨"BBB0000BB1", "BBB0000B", "BBB", "AAA", "0", "60", 0⟩

/-- Concrete input for the C1 witness: three records, two for one passenger
and one for another. -/
def inputC1 : List (Nat × PassengerRecord) := [(0, recA), (1, recA), (2, recB)]

/-- Final framework state of the C1 witness run. -/
def stC1 : MapReduceFramework Nat PassengerRecord String Nat (String × Nat) :=
  ⟨1, 1, [], [("AAA0000AA1", [1, 1]), ("BBB0000BB1", [1])], [],
    [("AAA0000AA1", 2), ("BBB0000BB1", 1)]⟩

theorem claim_C1_witness :
    ((MapReduceFramework.mk' 1 1).run inputC1 PassengerFlightCountMapper.map
        PassengerFlightCountReducer.reduce (List.replicate 10 0) (List.replicate 7 0)
      = some ([("AAA0000AA1", 2), ("BBB0000BB1", 1)], stC1))
    ∧ ([("AAA0000AA1", 2), ("BBB0000BB1", 1)].map Prod.snd).sum = inputC1.length := by
  constructor
  · decide
  · exact claim_C1 inputC1 1 1 (by decide) (by decide) (List.replicate 10 0)
      (List.replicate 7 0) [("AAA0000AA1", 2), ("BBB0000BB1", 1)] stC1 (by decide)

/-- C2.  Concrete scenario: for an input of 3 pairs mapped to key "P1" with
value 1 each and 2 pairs mapped to key "P2" with value 1 each, every
completed execution of `run` with the sum reducer returns, as an unordered
collection, exactly {("P1", 3), ("P2", 2)} — for every mapper-pool size ≥ 1
and reducer-pool size ≥ 1 and every thread interleaving. -/
theorem claim_C2 (nm nr : Nat) (hm : 1 ≤ nm) (hr : 1 ≤ nr) (ms rs : List Nat)
    (res : List (String × Nat)) (st : MapReduceFramework Nat Nat String Nat (String × Nat))
    (h : (MapReduceFramework.mk' nm nr).run inputC2 mapperC2
        PassengerFlightCountReducer.reduce ms rs = some (res, st)) :
    ((res : List (String × Nat)) : Multiset (String × Nat))
      = (([("P1", 3), ("P2", 2)] : List (String × Nat)) : Multiset (String × Nat)) := by
  have hfold : PassengerFlightCountReducer.reduce = foldReducer (· + ·) (0 : Nat) := rfl
  rw [hfold] at h
  have hcanon := run_fold_results _ inputC2 mapperC2 (· + ·) 0
    Nat.add_comm Nat.add_assoc ms rs res st h hm hr
  rw [hcanon]
  decide

/-- Final framework state of the C2 witness run with one mapper and one
reducer thread. -/
def stC2 : MapReduceFramework Nat Nat String Nat (String × Nat) :=
  ⟨1, 1, [], [("P1", [1, 1, 1]), ("P2", [1, 1])], [], [("P1", 3), ("P2", 2)]⟩

theorem claim_C2_witness :
    ((MapReduceFramework.mk' 1 1).run inputC2 mapperC2
        PassengerFlightCountReducer.reduce (List.replicate 16 0) (List.replicate 7 0)
      = some ([("P1", 3), ("P2", 2)], stC2))
    ∧ (([("P1", 3), ("P2", 2)] : List (String × Nat)) : Multiset (String × Nat))
        = (([("P1", 3), ("P2", 2)] : List (String × Nat)) : Multiset (String × Nat)) := by
  constructor
  · decide
  · exact claim_C2 1 1 (by decide) (by decide) (List.replicate 16 0) (List.replicate 7 0)
      [("P1", 3), ("P2", 2)] stC2 (by decide)

/-- C9.  Commutative-reducer determinism: for every input and every mapper
(failing invocations included), and every reducer folding a commutative and
associative operation over its value collection, any two completed
executions of `run` — whatever their mapper-pool sizes ≥ 1, reducer-pool
sizes ≥ 1 and thread interleavings — produce the same unordered collection
of result pairs, hence the same key-to-value mapping. -/
theorem claim_C9 {IK IV K V : Type} [DecidableEq K]
    (nm nr nm' nr' : Nat) (hm : 1 ≤ nm) (hr : 1 ≤ nr) (hm' : 1 ≤ nm') (hr' : 1 ≤ nr')
    (input : List (IK × IV)) (mapper : IK → IV → List (K × V) × Bool)
    (op : V → V → V) (e : V)
    (hcomm : ∀ a b, op a b = op b a)
    (hassoc : ∀ a b c, op (op a b) c = op a (op b c))
    (ms rs ms' rs' : List Nat)
    (res res' : List (K × V)) (st st' : MapReduceFramework IK IV K V (K × V))
    (h : (MapReduceFramework.mk' nm nr).run input mapper (foldReducer op e) ms rs
      = some (res, st))
    (h' : (MapReduceFramework.mk' nm' nr').run input mapper (foldReducer op e) ms' rs'
      = some (res', st')) :
    ((res : List (K × V)) : Multiset (K × V)) = ((res' : List (K × V)) : Multiset (K × V)) := by
  rw [run_fold_results _ input mapper op e hcomm hassoc ms rs res st h hm hr,
    run_fold_results _ input mapper op e hcomm hassoc ms' rs' res' st' h' hm' hr']

/-- Final framework state of the C9 witness run with two mapper and two
reducer threads (only worker 0 ever takes work in the chosen schedule). -/
def stC9 : MapReduceFramework Nat Nat String Nat (String × Nat) :=
  ⟨2, 2, [], [("P1", [1, 1, 1]), ("P2", [1, 1])], [], [("P1", 3), ("P2", 2)]⟩

theorem claim_C9_witness :
    ((MapReduceFramework.mk' 1 1).run inputC2 mapperC2
        (foldReducer (· + ·) (0 : Nat)) (List.replicate 16 0) (List.replicate 7 0)
      = some ([("P1", 3), ("P2", 2)], stC2))
    ∧ ((MapReduceFramework.mk' 2 2).run inputC2 mapperC2
        (foldReducer (· + ·) (0 : Nat)) (List.replicate 16 0 ++ [1]) (List.replicate 7 0 ++ [1])
      = some ([("P1", 3), ("P2", 2)], stC9))
    ∧ (([("P1", 3), ("P2", 2)] : List (String × Nat)) : Multiset (String × Nat))
        = (([("P1", 3), ("P2", 2)] : List (String × Nat)) : Multiset (String × Nat)) := by
  refine ⟨by decide, by decide, ?_⟩
  exact claim_C9 1 1 2 2 (by decide) (by decide) (by decide) (by decide)
    inputC2 mapperC2 (· + ·) 0 Nat.add_comm Nat.add_assoc
    (List.replicate 16 0) (List.replicate 7 0) (List.replicate 16 0 ++ [1]) (List.replicate 7 0 ++ [1])
    [("P1", 3), ("P2", 2)] [("P1", 3), ("P2", 2)] stC2 stC9 (by decide) (by decide)

/-- A mapper sending every record to key "P1" with value 1; never raises. -/
def mapperP1 : Nat → Nat → List (String × Nat) × Bool := fun _ _ => ([("P1", 1)], false)

/-- A reducer that emits one pair carrying its input key and additionally a
pair with the unrelated key "X"; never raises.  It satisfies the letter of
claim C3's hypothesis (at least one emitted pair carries the input key). -/
def rogueReducer : String → List Nat → List (String × Nat) × Bool :=
  fun k _ => ([(k, 0), ("X", 0)], false)

/-- Claim C3 as stated: for every input on which no mapper or reducer
invocation fails, and every reducer that emits at least one result pair
carrying its input key for each key it is given, the set of distinct keys of
the result collection of a completed run equals the set of distinct keys the
mapper emitted. -/
def ClaimC3Statement : Prop :=
  ∀ (input : List (Nat × Nat)) (mapper : Nat → Nat → List (String × Nat) × Bool)
    (reducer : String → List Nat → List (String × Nat) × Bool)
    (nm nr : Nat), 1 ≤ nm → 1 ≤ nr →
    (∀ t ∈ input, (mapper t.1 t.2).2 = false) →
    (∀ k vs, (reducer k vs).2 = false) →
    (∀ k vs, ∃ p ∈ (reducer k vs).1, p.1 = k) →
    ∀ ms rs res st,
      (MapReduceFramework.mk' nm nr).run input mapper reducer ms rs = some (res, st) →
      ∀ k, k ∈ res.map Prod.fst ↔ k ∈ (allEmissions mapper input).map Prod.fst

/-- Final framework state of the C3 counterexample run. -/
def stC3 : MapReduceFramework Nat Nat String Nat (String × Nat) :=
  ⟨1, 1, [], [("P1", [1])], [], [("P1", 0), ("X", 0)]⟩

/-- C3 as stated fails: a reducer may also emit pairs under keys the mapper
never produced, so the result key set can exceed the mapper's key set. -/
theorem claim_C3_counterexample : ¬ ClaimC3Statement := by
  intro hcl
  have h := hcl [(0, 0)] mapperP1 rogueReducer 1 1 (by decide) (by decide)
    (fun t _ => rfl) (fun k vs => rfl)
    (fun k vs => ⟨(k, 0), List.mem_cons_self _ _, rfl⟩)
    (List.replicate 4 0) (List.replicate 5 0) [("P1", 0), ("X", 0)] stC3 (by decide) "X"
  exact absurd (h.1 (by decide)) (by decide)

/-- C3, amended: the claim holds once every result pair the reducer emits
carries the reducer's input key (and at least one pair is emitted per key):
then the distinct keys of the result collection of a completed run with
nonempty pools are exactly the distinct keys the mapper emitted. -/
theorem claim_C3 {IK IV K V W : Type} [DecidableEq K]
    (fw : MapReduceFramework IK IV K V (K × W)) (input : List (IK × IV))
    (mapper : IK → IV → List (K × V) × Bool)
    (reducer : K → List V → List (K × W) × Bool) (ms rs : List Nat)
    (res : List (K × W)) (st : MapReduceFramework IK IV K V (K × W))
    (hm : 1 ≤ fw.num_mappers) (hr : 1 ≤ fw.num_reducers)
    (hmap_nofail : ∀ t ∈ input, (mapper t.1 t.2).2 = false)
    (hred_nofail : ∀ k vs, (reducer k vs).2 = false)
    (hsome : ∀ k vs, ∃ p ∈ (reducer k vs).1, p.1 = k)
    (hcarry : ∀ k vs, ∀ p ∈ (reducer k vs).1, p.1 = k)
    (h : fw.run input mapper reducer ms rs = some (res, st)) :
    ∀ k, k ∈ res.map Prod.fst ↔ k ∈ (allEmissions mapper input).map Prod.fst :=
  fun k =>
    ⟨run_keys_sub fw input mapper reducer ms rs res st h hcarry k,
     run_keys_sup fw input mapper reducer ms rs res st h hm hr hsome k⟩

/-- Final framework state of the C3 witness run. -/
def stC3w : MapReduceFramework Nat Nat String Nat (String × Nat) :=
  ⟨1, 1, [], [("P1", [1])], [], [("P1", 1)]⟩

theorem claim_C3_witness :
    ((MapReduceFramework.mk' 1 1).run [(0, 0)] mapperP1 (foldReducer (· + ·) (0 : Nat))
        (List.replicate 4 0) (List.replicate 4 0) = some ([("P1", 1)], stC3w))
    ∧ (("P1" ∈ ([("P1", 1)] : List (String × Nat)).map Prod.fst)
        ↔ ("P1" ∈ (allEmissions mapperP1 [(0, 0)]).map Prod.fst)) := by
  constructor
  · decide
  · exact claim_C3 (MapReduceFramework.mk' 1 1) [(0, 0)] mapperP1
      (foldReducer (· + ·) (0 : Nat)) (List.replicate 4 0) (List.replicate 4 0)
      [("P1", 1)] stC3w (by decide) (by decide) (fun t _ => rfl) (fun k vs => rfl)
      (fun k vs => ⟨(k, vs.foldl (· + ·) 0), List.mem_singleton.2 rfl, rfl⟩)
      (fun k vs p hp => by rw [List.mem_singleton.1 hp])
      (by decide) "P1"

/-- A mapper whose invocation yields one pair and then raises, on every
task. -/
def mapperFailC4 : Nat → Nat → List (String × Nat) × Bool := fun _ _ => ([("K", 7)], true)

/-- Claim C4 as stated: when a mapper invocation raises on a task, the whole
output of that task is discarded — the shuffle table of a completed map
phase holds exactly the emissions of the non-failing tasks. -/
def ClaimC4Statement : Prop :=
  ∀ (mapper : Nat → Nat → List (String × Nat) × Bool) (input : List (Nat × Nat))
    (nm : Nat) (ms : List Nat), 1 ≤ nm →
    allDone (mapPhase mapper nm input ms) = true →
    dictPairs (mapPhase mapper nm input ms).acc
      = ((input.flatMap fun t => if (mapper t.1 t.2).2 = true then []
          else (mapper t.1 t.2).1 : List (String × Nat)) : Multiset (String × Nat))

/-- C4 as stated fails: a Python generator that raises after yielding has
already written the yielded pairs into the shuffle table, and the `except`
clause does not undo those writes — the failing task's pair ("K", 7) stays
in the table. -/
theorem claim_C4_counterexample : ¬ ClaimC4Statement := by
  intro hcl
  have h := hcl mapperFailC4 [(0, 0)] 1 (List.replicate 4 0) (by decide) (by decide)
  exact absurd h (by decide)

/-- C4, amended: the error of a failing mapper invocation is caught inside
the worker at the end of the iteration and the worker continues with the
remaining tasks; the pairs the invocation emitted before raising remain in
the shuffle table, so a completed map phase holds exactly every pair emitted
before the point of failure of each task (all pairs, for non-failing
tasks). -/
theorem claim_C4 {IK IV K V : Type} [DecidableEq K]
    (mapper : IK → IV → List (K × V) × Bool) (input : List (IK × IV))
    (nm : Nat) (ms : List Nat) (hm : 1 ≤ nm)
    (hdone : allDone (mapPhase mapper nm input ms) = true) :
    dictPairs (mapPhase mapper nm input ms).acc
      = ((allEmissions mapper input : List (K × V)) : Multiset (K × V)) :=
  mapPhase_pairs mapper nm input ms hm hdone

theorem claim_C4_witness :
    (dictPairs (mapPhase mapperFailC4 1 [(0, 0)] (List.replicate 4 0)).acc
      = ((allEmissions mapperFailC4 [(0, 0)] : List (String × Nat)) : Multiset (String × Nat)))
    ∧ ("K", 7) ∈ dictPairs (mapPhase mapperFailC4 1 [(0, 0)] (List.replicate 4 0)).acc := by
  constructor
  · exact claim_C4 mapperFailC4 [(0, 0)] 1 (List.replicate 4 0) (by decide) (by decide)
  · decide

/-- A mapper emitting one pair per record; never raises. -/
def mapperA : Nat → Nat → List (String × Nat) × Bool := fun _ v => ([("A", v)], false)

/-- Claim C5 as stated: with a zero-sized mapper or reducer pool and a
nonempty input, `run` blocks indefinitely and never returns — no schedule
describes a completed execution. -/
def ClaimC5Statement : Prop :=
  ∀ (input : List (Nat × Nat)) (mapper : Nat → Nat → List (String × Nat) × Bool)
    (reducer : String → List Nat → List (String × Nat) × Bool) (nm nr : Nat),
    input ≠ [] → (nm = 0 ∨ nr = 0) →
    ∀ ms rs, (MapReduceFramework.mk' nm nr).run input mapper reducer ms rs = none

/-- C5 as stated fails: the "barrier" is a join over the spawned threads, and
with zero threads the join completes immediately, so `run` returns (with an
empty result and the map queue still full) instead of blocking. -/
theorem claim_C5_counterexample : ¬ ClaimC5Statement := by
  intro hcl
  have h := hcl [(0, 0)] mapperA (foldReducer (· + ·) 0) 0 1 (by decide)
    (Or.inl rfl) [] [0]
  exact absurd h (by decide)

/-- C5, amended: with a zero-sized pool the corresponding queue is indeed
never drained, but `run` does not block: it returns an empty result
collection; with zero mappers the final state still holds the entire input
in the map queue and an empty shuffle table, and with zero reducers the
final state still holds every reduce task in the reduce queue. -/
theorem claim_C5 {IK IV K V R : Type} [DecidableEq K]
    (fw : MapReduceFramework IK IV K V R) (input : List (IK × IV))
    (mapper : IK → IV → List (K × V) × Bool)
    (reducer : K → List V → List R × Bool) (ms rs : List Nat)
    (res : List R) (st : MapReduceFramework IK IV K V R)
    (h : fw.run input mapper reducer ms rs = some (res, st)) :
    (fw.num_mappers = 0 → res = [] ∧ st.map_queue = input ∧ st.shuffle_dict = [])
    ∧ (fw.num_reducers = 0 → res = []
        ∧ st.reduce_queue = shuffle (mapPhase mapper fw.num_mappers input ms).acc) :=
  ⟨fun h0 => run_zero_mappers fw input mapper reducer ms rs res st h h0,
   fun h0 => run_zero_reducers fw input mapper reducer ms rs res st h h0⟩

/-- Final framework state of the C5 witness run: zero mappers, the input is
still sitting in the map queue, yet `run` returned. -/
def stC5 : MapReduceFramework Nat Nat String Nat (String × Nat) :=
  ⟨0, 1, [(0, 0)], [], [], []⟩

theorem claim_C5_witness :
    ((MapReduceFramework.mk' 0 1).run [(0, 0)] mapperA (foldReducer (· + ·) 0) [] [0]
      = some ([], stC5))
    ∧ (([] : List (String × Nat)) = [] ∧ stC5.map_queue = [(0, 0)] ∧ stC5.shuffle_dict = []) := by
  constructor
  · decide
  · exact (claim_C5 (MapReduceFramework.mk' 0 1) [(0, 0)] mapperA (foldReducer (· + ·) 0)
      [] [0] [] stC5 (by decide)).1 rfl

/-- A mapper whose invocation yields one pair and then raises, on every
task. -/
def failMapperC6 : Nat → Nat → List (String × Nat) × Bool := fun _ _ => ([("K", 1)], true)

/-- A reducer whose invocation yields one pair and then raises, on every
task. -/
def failReducerC6 : String → List Nat → List (String × Nat) × Bool :=
  fun k _ => ([(k, 99)], true)

/-- A mapper whose invocation raises before yielding anything, on every
task. -/
def emptyFailMapper : Nat → Nat → List (String × Nat) × Bool := fun _ _ => ([], true)

theorem flatMap_nil_of_forall_nil {α β : Type} (f : α → List β) (l : List α)
    (h : ∀ t ∈ l, f t = []) : l.flatMap f = [] := by
  induction l with
  | nil => rfl
  | cons t rest ih =>
    rw [List.flatMap_cons, h t (List.mem_cons_self _ _), List.nil_append]
    exact ih (fun t' ht' => h t' (List.mem_cons_of_mem _ ht'))

/-- Claim C6 as stated: `run` always returns a result collection (there is a
completed execution for every input and every pair of user functions), and
an empty input or failure of every map and reduce task yields an empty
result collection. -/
def ClaimC6Statement : Prop :=
  (∀ (input : List (Nat × Nat)) (mapper : Nat → Nat → List (String × Nat) × Bool)
     (reducer : String → List Nat → List (String × Nat) × Bool) (nm nr : Nat),
     ∃ ms rs res st,
       (MapReduceFramework.mk' nm nr).run input mapper reducer ms rs = some (res, st))
  ∧ (∀ (input : List (Nat × Nat)) (mapper : Nat → Nat → List (String × Nat) × Bool)
      (reducer : String → List Nat → List (String × Nat) × Bool) (nm nr : Nat) ms rs res st,
      (MapReduceFramework.mk' nm nr).run input mapper reducer ms rs = some (res, st) →
      (input = [] ∨ ((∀ t ∈ input, (mapper t.1 t.2).2 = true)
        ∧ ∀ k vs, (reducer k vs).2 = true)) →
      res = [])

/-- Final framework state of the C6 counterexample run. -/
def stC6 : MapReduceFramework Nat Nat String Nat (String × Nat) :=
  ⟨1, 1, [], [("K", [1])], [], [("K", 99)]⟩

/-- C6 as stated fails: when every map and reduce invocation raises after
yielding one pair, the yielded pairs survive (generator semantics), and the
run returns the nonempty collection [("K", 99)]. -/
theorem claim_C6_counterexample : ¬ ClaimC6Statement := by
  intro hcl
  have h := hcl.2 [(0, 0)] failMapperC6 failReducerC6 1 1
    (List.replicate 4 0) (List.replicate 4 0) [("K", 99)] stC6 (by decide)
    (Or.inr ⟨fun t _ => rfl, fun k vs => rfl⟩)
  exact absurd h (by decide)

/-- C6, amended: `run` always returns a result collection to the caller (a
completed execution exists for every input, mapper and reducer, including
ones that raise on every task); an empty input yields an empty result
collection, and so does failure of every map task before it emits any pair
(a task that raises after emitting contributes the pairs emitted before the
error). -/
theorem claim_C6 {IK IV K V R : Type} [DecidableEq K] :
    (∀ (fw : MapReduceFramework IK IV K V R) (input : List (IK × IV))
       (mapper : IK → IV → List (K × V) × Bool) (reducer : K → List V → List R × Bool),
       ∃ ms rs res st, fw.run input mapper reducer ms rs = some (res, st))
    ∧ (∀ (fw : MapReduceFramework IK IV K V R)
        (mapper : IK → IV → List (K × V) × Bool) (reducer : K → List V → List R × Bool)
        ms rs res st,
        fw.run [] mapper reducer ms rs = some (res, st) → res = [])
    ∧ (∀ (fw : MapReduceFramework IK IV K V R) (input : List (IK × IV))
        (mapper : IK → IV → List (K × V) × Bool) (reducer : K → List V → List R × Bool)
        ms rs res st,
        (∀ t ∈ input, (mapper t.1 t.2).1 = []) →
        fw.run input mapper reducer ms rs = some (res, st) → res = []) := by
  have key : ∀ (fw : MapReduceFramework IK IV K V R) (input : List (IK × IV))
      (mapper : IK → IV → List (K × V) × Bool) (reducer : K → List V → List R × Bool)
      ms rs res st,
      (∀ t ∈ input, (mapper t.1 t.2).1 = []) →
      fw.run input mapper reducer ms rs = some (res, st) → res = [] := by
    intro fw input mapper reducer ms rs res st hemit h
    rcases Nat.eq_zero_or_pos fw.num_mappers with hm0 | hmpos
    · exact (run_zero_mappers fw input mapper reducer ms rs res st h hm0).1
    · obtain ⟨hm1, _, _, _⟩ := run_eq_some fw input mapper reducer ms rs res st h
      have hpairs := mapPhase_pairs mapper fw.num_mappers input ms hmpos hm1
      have hanil : allEmissions mapper input = [] :=
        flatMap_nil_of_forall_nil _ input (fun t ht => hemit t ht)
      rw [hanil] at hpairs
      have hdnil : (mapPhase mapper fw.num_mappers input ms).acc = [] :=
        dict_nil_of_dictPairs_zero _
          (mapPhase_vals_ne_nil mapper fw.num_mappers input ms) (by rw [hpairs]; rfl)
      rcases Nat.eq_zero_or_pos fw.num_reducers with hr0 | hrpos
      · exact (run_zero_reducers fw input mapper reducer ms rs res st h hr0).1
      · have hres := run_results fw input mapper reducer ms rs res st h hrpos
        rw [hdnil, List.flatMap_nil] at hres
        rw [← Multiset.coe_eq_zero]
        exact hres
  refine ⟨?_, ?_, key⟩
  · intro fw input mapper reducer
    exact run_total fw input mapper reducer
  · intro fw mapper reducer ms rs res st h
    exact key fw [] mapper reducer ms rs res st (fun t ht => absurd ht (List.not_mem_nil t)) h

/-- Final framework state of the C6 witness run. -/
def stC6w : MapReduceFramework Nat Nat String Nat (String × Nat) :=
  ⟨1, 1, [], [], [], []⟩

theorem claim_C6_witness :
    ((MapReduceFramework.mk' 1 1).run [(0, 0)] emptyFailMapper (foldReducer (· + ·) 0)
        (List.replicate 3 0) [0] = some ([], stC6w))
    ∧ ([] : List (String × Nat)) = [] := by
  constructor
  · decide
  · exact claim_C6.2.2 (MapReduceFramework.mk' 1 1) [(0, 0)] emptyFailMapper
      (foldReducer (· + ·) 0) (List.replicate 3 0) [0] [] stC6w
      (fun t _ => rfl) (by decide)

/-- C7.  State isolation across runs: `run` begins by resetting the work
queue, the shuffle table and the result collector, so its outcome is
entirely independent of the collections the engine instance carried from a
prior run (two instances differing only in those collections produce
identical outcomes); in particular, a key that only appeared in a previous
run's mapper output — i.e. one the current run's mapper never emits — never
appears in the current run's result collection, as long as the reducer only
emits pairs carrying the key it was given. -/
theorem claim_C7 {IK IV K V W : Type} [DecidableEq K] :
    (∀ (fw fw' : MapReduceFramework IK IV K V (K × W)),
       fw.num_mappers = fw'.num_mappers → fw.num_reducers = fw'.num_reducers →
       ∀ (input : List (IK × IV)) (mapper : IK → IV → List (K × V) × Bool)
         (reducer : K → List V → List (K × W) × Bool) (ms rs : List Nat),
         fw.run input mapper reducer ms rs = fw'.run input mapper reducer ms rs)
    ∧ (∀ (fw : MapReduceFramework IK IV K V (K × W)) (input : List (IK × IV))
        (mapper : IK → IV → List (K × V) × Bool)
        (reducer : K → List V → List (K × W) × Bool) (ms rs : List Nat)
        (res : List (K × W)) (st : MapReduceFramework IK IV K V (K × W)) (k : K),
        (∀ k' vs, ∀ p ∈ (reducer k' vs).1, p.1 = k') →
        fw.run input mapper reducer ms rs = some (res, st) →
        k ∉ (allEmissions mapper input).map Prod.fst →
        k ∉ res.map Prod.fst) := by
  constructor
  · intro fw fw' hm hr input mapper reducer ms rs
    obtain ⟨a, b, c, d, e, f⟩ := fw
    obtain ⟨a', b', c', d', e', f'⟩ := fw'
    simp only at hm hr
    subst hm
    subst hr
    rfl
  · intro fw input mapper reducer ms rs res st k hcarry h hk hmem
    exact hk (run_keys_sub fw input mapper reducer ms rs res st h hcarry k hmem)

/-- An engine instance still carrying collections from a previous run. -/
def fwDirty : MapReduceFramework Nat Nat String Nat (String × Nat) :=
  ⟨1, 1, [(5, 5)], [("OLD", [9])], [("OLD", [9])], [("OLD", 9)]⟩

theorem claim_C7_witness :
    (fwDirty.run [(0, 0)] mapperP1 (foldReducer (· + ·) 0)
        (List.replicate 4 0) (List.replicate 4 0)
      = (MapReduceFramework.mk' 1 1).run [(0, 0)] mapperP1 (foldReducer (· + ·) 0)
          (List.replicate 4 0) (List.replicate 4 0))
    ∧ ("OLD" ∉ ([("P1", 1)] : List (String × Nat)).map Prod.fst) := by
  constructor
  · exact claim_C7.1 fwDirty (MapReduceFramework.mk' 1 1) rfl rfl [(0, 0)] mapperP1
      (foldReducer (· + ·) 0) (List.replicate 4 0) (List.replicate 4 0)
  · exact claim_C7.2 fwDirty [(0, 0)] mapperP1 (foldReducer (· + ·) 0)
      (List.replicate 4 0) (List.replicate 4 0) [("P1", 1)] stC3w "OLD"
      (fun k vs p hp => by rw [List.mem_singleton.1 hp])
      (by decide) (by decide)

/-- C8.  Shuffle partition: for every shuffle-table content the map phase can
produce, the shuffle step pushes exactly one reduce task per table entry, in
table order — the reduce queue is the table itself — and the table never
holds two entries for the same key, so there is exactly one task per
distinct key, carrying that key's accumulated value collection; and the
reduce-task list is a function of the table content alone, so repeating the
shuffle on the same content yields the same partition. -/
theorem claim_C8 {IK IV K V : Type} [DecidableEq K]
    (input : List (IK × IV)) (mapper : IK → IV → List (K × V) × Bool)
    (nm : Nat) (ms : List Nat) :
    shuffle (mapPhase mapper nm input ms).acc = (mapPhase mapper nm input ms).acc
    ∧ ((mapPhase mapper nm input ms).acc.map Prod.fst).Nodup
    ∧ (∀ d', d' = (mapPhase mapper nm input ms).acc →
        shuffle d' = shuffle (mapPhase mapper nm input ms).acc) :=
  ⟨shuffle_eq _, mapPhase_nodupKeys mapper nm input ms, fun d' hd => by rw [hd]⟩

theorem claim_C8_witness :
    (shuffle (mapPhase mapperC2 1 inputC2 (List.replicate 16 0)).acc
      = (mapPhase mapperC2 1 inputC2 (List.replicate 16 0)).acc)
    ∧ shuffle (mapPhase mapperC2 1 inputC2 (List.replicate 16 0)).acc
        = shuffle (mapPhase mapperC2 1 inputC2 (List.replicate 16 0)).acc := by
  constructor
  · exact (claim_C8 inputC2 mapperC2 1 (List.replicate 16 0)).1
  · exact (claim_C8 inputC2 mapperC2 1 (List.replicate 16 0)).2.2 _ rfl

/-- C10.  AirportDataParser's record validation does not constrain the
longitude's magnitude: whenever the name, code and latitude pass validation
(latitude parsing to a value within [-90, 90]) and the longitude merely
matches the numeric coordinate pattern, `_validate_airport_record` returns
True — the range check on lines 250-251 re-tests `lat_float` instead of the
longitude — so `parse` can return airports with out-of-range longitudes
such as 500.0. -/
theorem claim_C10 :
    (∀ (name code lat lon : List Char) (latv : ℚ),
      pyMatch nameCore name = true →
      pyMatch codeCore code = true →
      pyMatch coordCore lat = true →
      pyFloat lat = some latv → -90 ≤ latv → latv ≤ 90 →
      pyMatch coordCore lon = true →
      AirportDataParser.validate_airport_record name code lat lon = true)
    ∧ AirportDataParser.parse [["Heathrow".data, "LHR".data, "10.0".data, "500.0".data]]
        = [("LHR".data, ⟨"Heathrow".data, "LHR".data, 10, 500⟩)] := by
  constructor
  · intro name code lat lon latv hname hcode hlat hlatv h90a h90b hlon
    unfold AirportDataParser.validate_airport_record
    rw [hname, hcode, hlat, hlon]
    rw [if_neg (by decide), if_neg (by decide), if_neg (by decide), if_neg (by decide)]
    rw [hlatv]
    dsimp only
    rw [if_neg (by
      rintro (hc | hc)
      · exact absurd h90a (not_le.2 (by linarith))
      · exact absurd h90b (not_le.2 hc))]
    have hlonsome := pyFloat_isSome_of_pyMatch lon hlon
    rcases hlo : pyFloat lon with _ | lonv
    · rw [hlo] at hlonsome
      exact absurd hlonsome (by decide)
    · dsimp only
      rw [if_neg (by
        rintro (hc | hc)
        · exact absurd h90a (not_le.2 (by linarith))
        · exact absurd h90b (not_le.2 (by linarith)))]
  · decide

theorem claim_C10_witness :
    AirportDataParser.validate_airport_record
      "Heathrow".data "LHR".data "10.0".data "500.0".data = true :=
  claim_C10.1 "Heathrow".data "LHR".data "10.0".data "500.0".data 10
    (by decide) (by decide) (by decide) (by decide) (by decide) (by decide) (by decide)
